import Mathlib

/-!
# Verification of the zelo-refund refund engine

A shallow embedding of the refund quote algorithm, the refund execution
engine, the estimate route input handling, the money primitives, the card
processor adapter and the public redaction walker of the repository,
together with theorems settling the specification claims.

JavaScript `bigint` values are modelled as `Int`; `bigint` division
truncates toward zero, so it is modelled by `Int.tdiv`.  JavaScript strings
are modelled as `String` (identifiers) or `List Char` (yuan amount strings,
where the code performs character surgery).
-/

namespace ZeloRefund

/-! ## Money primitives (src/unnamed/part_012, `utils/quota.ts`) -/

def QUOTA_PER_YUAN : Int := 500000

def QUOTA_PER_CENT : Int := 5000

/-- Source `centsToQuota = (cents) => cents * QUOTA_PER_CENT`. -/
def centsToQuota (cents : Int) : Int := cents * QUOTA_PER_CENT

/-- Source `quotaToCentsFloor = (quota) => quota / QUOTA_PER_CENT` (bigint division,
truncating toward zero). -/
def quotaToCentsFloor (quota : Int) : Int := quota.tdiv QUOTA_PER_CENT

/-! ## Refund quote algorithm (src/unnamed/part_013, `utils/refundAlgo.ts`) -/

/-- Source `RefundAlgoOrder`: the per-order tuple fed to the quote algorithm. -/
structure RefundAlgoOrder where
  id : String
  paid_cents : Int
  grant_quota : Int
  created_at : Int
  deriving DecidableEq, Repr

/-- Source `RefundAlgoOrderComputed`: an order together with the fields computed by
the algorithm. -/
structure RefundAlgoOrderComputed where
  id : String
  paid_cents : Int
  grant_quota : Int
  created_at : Int
  paid_quota : Int
  promo_ratio_num : Int
  promo_ratio_den : Int
  used_alloc_quota : Int
  refundable_quota : Int
  deriving DecidableEq, Repr

/-- Source `RefundAlgoResult`. -/
structure RefundAlgoResult where
  due_cents : Int
  due_quota : Int
  used_total_quota : Int
  orders_sorted : List RefundAlgoOrderComputed
  deriving DecidableEq, Repr

/-- Source `clampNonNegative = (value) => (value < 0n ? 0n : value)`. -/
def clampNonNegative (value : Int) : Int := if value < 0 then 0 else value

/-- Source `comparePromoRatioDesc(a, b)`: cross-multiplied comparison of
promotional ratios `num/g` in descending order (`r = 0` when `g = 0`),
returning `-1`, `0` or `1` as the JavaScript comparator does. -/
def comparePromoRatioDesc (a b : RefundAlgoOrderComputed) : Int :=
  let gA := a.grant_quota
  let gB := b.grant_quota
  if gA = 0 ∧ gB = 0 then 0
  else if gA = 0 then
    let nB := b.promo_ratio_num
    if nB = 0 then 0 else if nB > 0 then 1 else -1
  else if gB = 0 then
    let nA := a.promo_ratio_num
    if nA = 0 then 0 else if nA > 0 then -1 else 1
  else
    let left := a.promo_ratio_num * gB
    let right := b.promo_ratio_num * gA
    if left = right then 0 else if left > right then -1 else 1

/-- The inline comparator of `computeRefundDueV2`'s sort: promo ratio
descending, then `grant_quota` descending, `created_at` ascending, `id`
ascending. -/
def compareOrders (a b : RefundAlgoOrderComputed) : Int :=
  let ratioCmp := comparePromoRatioDesc a b
  if ratioCmp ≠ 0 then ratioCmp
  else if a.grant_quota ≠ b.grant_quota then
    (if a.grant_quota > b.grant_quota then -1 else 1)
  else if a.created_at ≠ b.created_at then
    (if a.created_at < b.created_at then -1 else 1)
  else if a.id = b.id then 0
  else if a.id < b.id then -1 else 1

/-- Boolean "`a` sorts no later than `b`" used to run the comparator-based
sort: the comparator does not place `a` strictly after `b`. -/
def ordersLe (a b : RefundAlgoOrderComputed) : Bool := compareOrders a b ≤ 0

/-- Normalization performed by `computeRefundDueV2` on each input order
(clamping, `paid_quota`, promo ratio numerator and denominator). -/
def normalizeOrder (o : RefundAlgoOrder) : RefundAlgoOrderComputed :=
  let paidCents := clampNonNegative o.paid_cents
  let grantQuota := clampNonNegative o.grant_quota
  let paidQuota := centsToQuota paidCents
  let promoNum := if grantQuota > 0 then grantQuota - paidQuota else 0
  { id := o.id
    paid_cents := paidCents
    grant_quota := grantQuota
    created_at := o.created_at
    paid_quota := paidQuota
    promo_ratio_num := promoNum
    promo_ratio_den := grantQuota
    used_alloc_quota := 0
    refundable_quota := 0 }

/-- The allocation loop of `computeRefundDueV2`: walks the sorted list
carrying `allocatedSum`, fills in `used_alloc_quota` and `refundable_quota`
for every order and returns the annotated list together with the final
`allocatedSum` and `totalRefundableQuota`. -/
def consumeLoop (U : Int) : List RefundAlgoOrderComputed → Int →
    List RefundAlgoOrderComputed × Int × Int
  | [], acc => ([], acc, 0)
  | o :: rest, acc =>
      let remaining := U - acc
      let u := if remaining ≤ 0 then 0
        else if remaining ≥ o.grant_quota then o.grant_quota else remaining
      let refundable := if o.paid_quota > u then o.paid_quota - u else 0
      let r := consumeLoop U rest (acc + u)
      ({ o with used_alloc_quota := u, refundable_quota := refundable } :: r.1,
        r.2.1, refundable + r.2.2)

/-- The sort of `computeRefundDueV2` (a stable comparator sort, modelled by
`List.mergeSort` with `ordersLe`). -/
def sortOrders (l : List RefundAlgoOrderComputed) : List RefundAlgoOrderComputed :=
  l.mergeSort ordersLe

/-- Source `computeRefundDueV2(orders, usedTotalQuota)`. -/
def computeRefundDueV2 (orders : List RefundAlgoOrder) (usedTotalQuota : Int) :
    RefundAlgoResult :=
  let normalized := orders.map normalizeOrder
  let sorted := sortOrders normalized
  let U := clampNonNegative usedTotalQuota
  let walked := consumeLoop U sorted 0
  { due_cents := quotaToCentsFloor walked.2.2
    due_quota := walked.2.2
    used_total_quota := U
    orders_sorted := walked.1 }

/-! ## Claim C1: the consumption-allocation walk -/

/-- The specification's description of the walk: assign
`u_i = max(0, min(g_i, U - Σ_{j<i} u_j))` (the accumulator holds
`Σ_{j<i} u_j`) and `f_i = max(0, paid_cents_i * 5000 - u_i)`. -/
def specWalk (U : Int) : List RefundAlgoOrderComputed → Int →
    List RefundAlgoOrderComputed
  | [], _ => []
  | o :: rest, alloc =>
      let u := max 0 (min o.grant_quota (U - alloc))
      let f := max 0 (o.paid_cents * 5000 - u)
      { o with used_alloc_quota := u, refundable_quota := f } ::
        specWalk U rest (alloc + u)

theorem clampNonNegative_eq_max (v : Int) : clampNonNegative v = max 0 v := by
  simp only [clampNonNegative]
  omega

theorem consumeLoop_eq_specWalk (U : Int) (l : List RefundAlgoOrderComputed)
    (acc : Int)
    (hwf : ∀ o ∈ l, 0 ≤ o.grant_quota ∧ o.paid_quota = o.paid_cents * 5000) :
    (consumeLoop U l acc).1 = specWalk U l acc ∧
      (consumeLoop U l acc).2.2 =
        ((consumeLoop U l acc).1.map (·.refundable_quota)).sum ∧
      0 ≤ (consumeLoop U l acc).2.2 := by
  induction l generalizing acc with
  | nil => simp [consumeLoop, specWalk]
  | cons o rest ih =>
      obtain ⟨hg, hpq⟩ := hwf o (by simp)
      have hrest := fun o ho => hwf o (List.mem_cons_of_mem _ ho)
      simp only [consumeLoop, specWalk]
      have hu : (if U - acc ≤ 0 then 0
          else if U - acc ≥ o.grant_quota then o.grant_quota else U - acc) =
          max 0 (min o.grant_quota (U - acc)) := by
        rcases le_or_lt (U - acc) 0 with h | h <;> omega
      have hf : (if o.paid_quota >
            max 0 (min o.grant_quota (U - acc)) then
            o.paid_quota - max 0 (min o.grant_quota (U - acc)) else 0) =
          max 0 (o.paid_cents * 5000 - max 0 (min o.grant_quota (U - acc))) := by
        rw [hpq]; omega
      rw [hu, hf]
      obtain ⟨ih1, ih2, ih3⟩ :=
        ih (acc + max 0 (min o.grant_quota (U - acc))) hrest
      refine ⟨by rw [ih1], ?_, ?_⟩
      · simp only [List.map_cons, List.sum_cons]
        rw [ih2]
      · have : 0 ≤ max 0 (o.paid_cents * 5000 -
            max 0 (min o.grant_quota (U - acc))) := le_max_left _ _
        omega

theorem sortOrders_wellFormed (orders : List RefundAlgoOrder) :
    ∀ o ∈ sortOrders (orders.map normalizeOrder),
      0 ≤ o.grant_quota ∧ o.paid_quota = o.paid_cents * 5000 := by
  intro o ho
  have hmem : o ∈ orders.map normalizeOrder :=
    ((List.mergeSort_perm (orders.map normalizeOrder) ordersLe).mem_iff).mp ho
  obtain ⟨x, _, rfl⟩ := List.mem_map.mp hmem
  constructor
  · simp only [normalizeOrder, clampNonNegative]
    split <;> omega
  · simp [normalizeOrder, centsToQuota, QUOTA_PER_CENT]

/-- C1.  `computeRefundDueV2` walks the comparator-sorted normalized order
list assigning each order `u_i = max(0, min(g_i, U - Σ_{j<i} u_j))` and
`f_i = max(0, paid_cents_i * 5000 - u_i)` (with negative `paid_cents`,
`grant_quota` and `used_quota` clamped to `0` by the normalization and by
`U = max 0 used`), returns `due_quota = Σ f_i` and
`due_cents = due_quota / 5000` by exact integer floor division, and
`due_cents` is non-negative for every input. -/
theorem computeRefundDueV2_matches_spec (orders : List RefundAlgoOrder)
    (used : Int) :
    (computeRefundDueV2 orders used).orders_sorted =
        specWalk (max 0 used) (sortOrders (orders.map normalizeOrder)) 0 ∧
      (computeRefundDueV2 orders used).due_quota =
        (((computeRefundDueV2 orders used).orders_sorted).map
          (·.refundable_quota)).sum ∧
      (computeRefundDueV2 orders used).due_cents =
        (computeRefundDueV2 orders used).due_quota / 5000 ∧
      0 ≤ (computeRefundDueV2 orders used).due_quota ∧
      0 ≤ (computeRefundDueV2 orders used).due_cents := by
  obtain ⟨h1, h2, h3⟩ :=
    consumeLoop_eq_specWalk (clampNonNegative used)
      (sortOrders (orders.map normalizeOrder)) 0
      (sortOrders_wellFormed orders)
  have hU : clampNonNegative used = max 0 used := clampNonNegative_eq_max used
  have hdiv : quotaToCentsFloor
      (consumeLoop (clampNonNegative used)
        (sortOrders (orders.map normalizeOrder)) 0).2.2 =
      (consumeLoop (clampNonNegative used)
        (sortOrders (orders.map normalizeOrder)) 0).2.2 / 5000 := by
    unfold quotaToCentsFloor QUOTA_PER_CENT
    exact Int.tdiv_eq_ediv h3 (by norm_num)
  refine ⟨?_, ?_, ?_, ?_, ?_⟩
  · simpa [computeRefundDueV2, hU] using h1
  · simpa [computeRefundDueV2] using h2
  · simpa [computeRefundDueV2] using hdiv
  · simpa [computeRefundDueV2] using h3
  · have := Int.ediv_nonneg h3 (by norm_num : (0:Int) ≤ 5000)
    simp only [computeRefundDueV2]
    rw [hdiv] at *
    simpa using this

/-! ## Claim C2: the comparator and sort determinism -/

/-- Orders as produced by `normalizeOrder`: non-negative `grant_quota` and
the promo-ratio numerator `g - p_quota` (or `0` when `g = 0`). -/
def IsNormalized (o : RefundAlgoOrderComputed) : Prop :=
  0 ≤ o.grant_quota ∧
    o.promo_ratio_num =
      (if 0 < o.grant_quota then o.grant_quota - o.paid_quota else 0)

theorem normalizeOrder_isNormalized (x : RefundAlgoOrder) :
    IsNormalized (normalizeOrder x) := by
  constructor
  · simp only [normalizeOrder, clampNonNegative]
    split <;> omega
  · simp only [normalizeOrder, centsToQuota]

/-- The promotional ratio `r = (g - p_quota) / g` (`0` when `g = 0`) as an
exact rational number. -/
def promoRatio (o : RefundAlgoOrderComputed) : ℚ :=
  if o.grant_quota = 0 then 0
  else ((o.grant_quota : ℚ) - (o.paid_quota : ℚ)) / (o.grant_quota : ℚ)

/-- The sort key: ratio descending, `grant_quota` descending, `created_at`
ascending, `id` ascending — as a lexicographic tuple in a linear order. -/
def orderKey (o : RefundAlgoOrderComputed) :
    Lex (ℚ × Lex (ℤ × Lex (ℤ × String))) :=
  toLex (-promoRatio o, toLex (-o.grant_quota, toLex (o.created_at, o.id)))

theorem promoRatio_eq_num_div {o : RefundAlgoOrderComputed}
    (h : 0 < o.grant_quota)
    (hn : o.promo_ratio_num = o.grant_quota - o.paid_quota) :
    promoRatio o = (o.promo_ratio_num : ℚ) / (o.grant_quota : ℚ) := by
  rw [promoRatio, if_neg (by omega), hn]
  push_cast
  ring

theorem comparePromoRatioDesc_lt_iff {a b : RefundAlgoOrderComputed}
    (ha : IsNormalized a) (hb : IsNormalized b) :
    comparePromoRatioDesc a b < 0 ↔ promoRatio b < promoRatio a := by
  obtain ⟨ha0, han⟩ := ha
  obtain ⟨hb0, hbn⟩ := hb
  rcases eq_or_lt_of_le ha0 with hga | hga <;>
    rcases eq_or_lt_of_le hb0 with hgb | hgb
  · simp [comparePromoRatioDesc, promoRatio, ← hga, ← hgb]
  · rw [if_pos hgb] at hbn
    have hgbQ : (0 : ℚ) < (b.grant_quota : ℚ) := by exact_mod_cast hgb
    have hra : promoRatio a = 0 := by simp [promoRatio, ← hga]
    have hrb : promoRatio b = (b.promo_ratio_num : ℚ) / (b.grant_quota : ℚ) :=
      promoRatio_eq_num_div hgb hbn
    have hc : comparePromoRatioDesc a b =
        (if b.promo_ratio_num = 0 then 0
          else if b.promo_ratio_num > 0 then 1 else -1) := by
      simp only [comparePromoRatioDesc]
      rw [if_neg (by omega), if_pos (by omega)]
    have hdiv : ((b.promo_ratio_num : ℚ) / (b.grant_quota : ℚ) < 0) ↔
        b.promo_ratio_num < 0 := by
      rw [div_lt_iff₀ hgbQ, zero_mul]
      exact_mod_cast Iff.rfl
    rw [hc, hra, hrb, hdiv]
    split_ifs <;> first | omega | (simp only [false_iff, iff_false]; omega)
  · rw [if_pos hga] at han
    have hgaQ : (0 : ℚ) < (a.grant_quota : ℚ) := by exact_mod_cast hga
    have hra : promoRatio a = (a.promo_ratio_num : ℚ) / (a.grant_quota : ℚ) :=
      promoRatio_eq_num_div hga han
    have hrb : promoRatio b = 0 := by simp [promoRatio, ← hgb]
    have hc : comparePromoRatioDesc a b =
        (if a.promo_ratio_num = 0 then 0
          else if a.promo_ratio_num > 0 then -1 else 1) := by
      simp only [comparePromoRatioDesc]
      rw [if_neg (by omega), if_neg (by omega), if_pos (by omega)]
    have hdiv : ((0:ℚ) < (a.promo_ratio_num : ℚ) / (a.grant_quota : ℚ)) ↔
        0 < a.promo_ratio_num := by
      rw [lt_div_iff₀ hgaQ, zero_mul]
      exact_mod_cast Iff.rfl
    rw [hc, hra, hrb, hdiv]
    split_ifs <;> first | omega | (simp only [false_iff, iff_false]; omega)
  · rw [if_pos hga] at han
    rw [if_pos hgb] at hbn
    have hgaQ : (0 : ℚ) < (a.grant_quota : ℚ) := by exact_mod_cast hga
    have hgbQ : (0 : ℚ) < (b.grant_quota : ℚ) := by exact_mod_cast hgb
    have hc : comparePromoRatioDesc a b =
        (if a.promo_ratio_num * b.grant_quota =
            b.promo_ratio_num * a.grant_quota then 0
          else if a.promo_ratio_num * b.grant_quota >
            b.promo_ratio_num * a.grant_quota then -1 else 1) := by
      simp only [comparePromoRatioDesc]
      rw [if_neg (by omega), if_neg (by omega), if_neg (by omega)]
    have hdiv : ((b.promo_ratio_num : ℚ) / (b.grant_quota : ℚ) <
        (a.promo_ratio_num : ℚ) / (a.grant_quota : ℚ)) ↔
        b.promo_ratio_num * a.grant_quota <
          a.promo_ratio_num * b.grant_quota := by
      rw [div_lt_div_iff₀ hgbQ hgaQ]
      exact_mod_cast Iff.rfl
    rw [hc, promoRatio_eq_num_div hga han, promoRatio_eq_num_div hgb hbn, hdiv]
    split_ifs <;> first | omega | (simp only [false_iff, iff_false]; omega)

theorem comparePromoRatioDesc_eq_zero_iff {a b : RefundAlgoOrderComputed}
    (ha : IsNormalized a) (hb : IsNormalized b) :
    comparePromoRatioDesc a b = 0 ↔ promoRatio a = promoRatio b := by
  obtain ⟨ha0, han⟩ := ha
  obtain ⟨hb0, hbn⟩ := hb
  rcases eq_or_lt_of_le ha0 with hga | hga <;>
    rcases eq_or_lt_of_le hb0 with hgb | hgb
  · simp [comparePromoRatioDesc, promoRatio, ← hga, ← hgb]
  · rw [if_pos hgb] at hbn
    have hgbQ : (0 : ℚ) < (b.grant_quota : ℚ) := by exact_mod_cast hgb
    have hra : promoRatio a = 0 := by simp [promoRatio, ← hga]
    have hrb : promoRatio b = (b.promo_ratio_num : ℚ) / (b.grant_quota : ℚ) :=
      promoRatio_eq_num_div hgb hbn
    have hc : comparePromoRatioDesc a b =
        (if b.promo_ratio_num = 0 then 0
          else if b.promo_ratio_num > 0 then 1 else -1) := by
      simp only [comparePromoRatioDesc]
      rw [if_neg (by omega), if_pos (by omega)]
    have hdiv : ((0:ℚ) = (b.promo_ratio_num : ℚ) / (b.grant_quota : ℚ)) ↔
        b.promo_ratio_num = 0 := by
      rw [eq_comm, div_eq_zero_iff]
      constructor
      · rintro (h | h)
        · exact_mod_cast h
        · exact absurd h (ne_of_gt hgbQ)
      · intro h
        exact Or.inl (by exact_mod_cast h)
    rw [hc, hra, hrb, hdiv]
    clear hdiv
    split_ifs <;> first | omega | (simp only [false_iff, iff_false]; omega)
  · rw [if_pos hga] at han
    have hgaQ : (0 : ℚ) < (a.grant_quota : ℚ) := by exact_mod_cast hga
    have hra : promoRatio a = (a.promo_ratio_num : ℚ) / (a.grant_quota : ℚ) :=
      promoRatio_eq_num_div hga han
    have hrb : promoRatio b = 0 := by simp [promoRatio, ← hgb]
    have hc : comparePromoRatioDesc a b =
        (if a.promo_ratio_num = 0 then 0
          else if a.promo_ratio_num > 0 then -1 else 1) := by
      simp only [comparePromoRatioDesc]
      rw [if_neg (by omega), if_neg (by omega), if_pos (by omega)]
    have hdiv : ((a.promo_ratio_num : ℚ) / (a.grant_quota : ℚ) = 0) ↔
        a.promo_ratio_num = 0 := by
      rw [div_eq_zero_iff]
      constructor
      · rintro (h | h)
        · exact_mod_cast h
        · exact absurd h (ne_of_gt hgaQ)
      · intro h
        exact Or.inl (by exact_mod_cast h)
    rw [hc, hra, hrb, hdiv]
    clear hdiv
    split_ifs <;> first | omega | (simp only [false_iff, iff_false]; omega)
  · rw [if_pos hga] at han
    rw [if_pos hgb] at hbn
    have hgaQ : (0 : ℚ) < (a.grant_quota : ℚ) := by exact_mod_cast hga
    have hgbQ : (0 : ℚ) < (b.grant_quota : ℚ) := by exact_mod_cast hgb
    have hc : comparePromoRatioDesc a b =
        (if a.promo_ratio_num * b.grant_quota =
            b.promo_ratio_num * a.grant_quota then 0
          else if a.promo_ratio_num * b.grant_quota >
            b.promo_ratio_num * a.grant_quota then -1 else 1) := by
      simp only [comparePromoRatioDesc]
      rw [if_neg (by omega), if_neg (by omega), if_neg (by omega)]
    have hdiv : ((a.promo_ratio_num : ℚ) / (a.grant_quota : ℚ) =
        (b.promo_ratio_num : ℚ) / (b.grant_quota : ℚ)) ↔
        a.promo_ratio_num * b.grant_quota =
          b.promo_ratio_num * a.grant_quota := by
      rw [div_eq_div_iff (ne_of_gt hgaQ) (ne_of_gt hgbQ)]
      exact_mod_cast Iff.rfl
    rw [hc, promoRatio_eq_num_div hga han, promoRatio_eq_num_div hgb hbn, hdiv]
    clear hdiv
    split_ifs <;> first | omega | (simp only [false_iff, iff_false]; omega)

theorem compareOrders_lt_iff {a b : RefundAlgoOrderComputed}
    (ha : IsNormalized a) (hb : IsNormalized b) :
    compareOrders a b < 0 ↔ orderKey a < orderKey b := by
  have hkey : orderKey a < orderKey b ↔
      (promoRatio b < promoRatio a ∨ (promoRatio a = promoRatio b ∧
        (b.grant_quota < a.grant_quota ∨ (a.grant_quota = b.grant_quota ∧
          (a.created_at < b.created_at ∨
            (a.created_at = b.created_at ∧ a.id < b.id)))))) := by
    simp [orderKey, Prod.Lex.lt_iff, neg_lt_neg_iff, neg_inj]
  rw [hkey]
  rcases lt_trichotomy (comparePromoRatioDesc a b) 0 with h | h | h
  · have hr : promoRatio b < promoRatio a :=
      (comparePromoRatioDesc_lt_iff ha hb).mp h
    have hco : compareOrders a b = comparePromoRatioDesc a b := by
      simp only [compareOrders]
      rw [if_pos (by omega)]
    rw [hco]
    exact iff_of_true h (Or.inl hr)
  · have hr : promoRatio a = promoRatio b :=
      (comparePromoRatioDesc_eq_zero_iff ha hb).mp h
    simp only [compareOrders]
    rw [if_neg (by omega)]
    rw [hr]
    simp only [lt_irrefl, false_or, true_and, eq_self_iff_true]
    split_ifs with h1 h2 h3 h4 h5 h6
    · exact iff_of_true (by omega) (Or.inl (by omega))
    · refine iff_of_false (by omega) ?_
      rintro (hx | ⟨hx, _⟩) <;> omega
    · refine iff_of_true (by omega) (Or.inr ⟨by omega, Or.inl h4⟩)
    · refine iff_of_false (by omega) ?_
      rintro (hx | ⟨hx, hy | ⟨hy, _⟩⟩) <;> omega
    · refine iff_of_false (by omega) ?_
      rintro (hx | ⟨hx, hy | ⟨hy, hz⟩⟩)
      · omega
      · omega
      · exact absurd (h5 ▸ hz) (lt_irrefl b.id)
    · exact iff_of_true (by omega) (Or.inr ⟨by omega, Or.inr ⟨by omega, h6⟩⟩)
    · refine iff_of_false (by omega) ?_
      rintro (hx | ⟨hx, hy | ⟨hy, hz⟩⟩)
      · omega
      · omega
      · exact h6 hz
  · have hne : promoRatio a ≠ promoRatio b := fun hr => by
      have := (comparePromoRatioDesc_eq_zero_iff ha hb).mpr hr
      omega
    have hnlt : ¬ promoRatio b < promoRatio a := fun hr => by
      have := (comparePromoRatioDesc_lt_iff ha hb).mpr hr
      omega
    have hco : compareOrders a b = comparePromoRatioDesc a b := by
      simp only [compareOrders]
      rw [if_pos (by omega)]
    rw [hco]
    refine iff_of_false (by omega) ?_
    rintro (hlt | ⟨heq, _⟩)
    · exact hnlt hlt
    · exact hne heq

theorem compareOrders_eq_zero_iff {a b : RefundAlgoOrderComputed}
    (ha : IsNormalized a) (hb : IsNormalized b) :
    compareOrders a b = 0 ↔ orderKey a = orderKey b := by
  have hkey : orderKey a = orderKey b ↔
      (promoRatio a = promoRatio b ∧ (a.grant_quota = b.grant_quota ∧
        (a.created_at = b.created_at ∧ a.id = b.id))) := by
    simp [orderKey, Prod.ext_iff, neg_inj]
  rw [hkey]
  rcases eq_or_ne (comparePromoRatioDesc a b) 0 with h | h
  · have hr : promoRatio a = promoRatio b :=
      (comparePromoRatioDesc_eq_zero_iff ha hb).mp h
    simp only [compareOrders]
    rw [if_neg (by omega)]
    rw [hr]
    simp only [true_and, eq_self_iff_true]
    split_ifs with h1 h2 h3 h4 h5 h6
    · refine iff_of_false (by decide) ?_
      rintro ⟨hx, -⟩
      omega
    · refine iff_of_false (by decide) ?_
      rintro ⟨hx, -⟩
      omega
    · refine iff_of_false (by decide) ?_
      rintro ⟨-, hy, -⟩
      omega
    · refine iff_of_false (by decide) ?_
      rintro ⟨-, hy, -⟩
      omega
    · exact iff_of_true (by trivial) ⟨by omega, by omega, h5⟩
    · refine iff_of_false (by decide) ?_
      rintro ⟨-, -, hz⟩
      exact h5 hz
    · refine iff_of_false (by decide) ?_
      rintro ⟨-, -, hz⟩
      exact h5 hz
  · have hr : promoRatio a ≠ promoRatio b := fun hr => by
      have := (comparePromoRatioDesc_eq_zero_iff ha hb).mpr hr
      omega
    have hco : compareOrders a b = comparePromoRatioDesc a b := by
      simp only [compareOrders]
      rw [if_pos (by omega)]
    rw [hco]
    refine iff_of_false h ?_
    rintro ⟨heq, -⟩
    exact hr heq

theorem ordersLe_iff_key {a b : RefundAlgoOrderComputed}
    (ha : IsNormalized a) (hb : IsNormalized b) :
    ordersLe a b = true ↔ orderKey a ≤ orderKey b := by
  have h1 : ordersLe a b = true ↔
      (compareOrders a b < 0 ∨ compareOrders a b = 0) := by
    simp only [ordersLe, decide_eq_true_eq]
    omega
  rw [h1, compareOrders_lt_iff ha hb, compareOrders_eq_zero_iff ha hb,
    ← le_iff_lt_or_eq]

theorem orderKey_eq_implies_id {a b : RefundAlgoOrderComputed}
    (h : orderKey a = orderKey b) : a.id = b.id := by
  simp only [orderKey, toLex_inj, Prod.ext_iff] at h
  exact h.2.2.2

theorem sortOrders_pairwise (l : List RefundAlgoOrderComputed)
    (h : ∀ o ∈ l, IsNormalized o) :
    (sortOrders l).Pairwise (fun x y => ordersLe x y = true) := by
  classical
  have htrans : ∀ x y z : {o // o ∈ l},
      (fun u v : {o // o ∈ l} => ordersLe u.1 v.1) x y →
      (fun u v : {o // o ∈ l} => ordersLe u.1 v.1) y z →
      (fun u v : {o // o ∈ l} => ordersLe u.1 v.1) x z := by
    intro x y z hxy hyz
    have hk1 := (ordersLe_iff_key (h _ x.2) (h _ y.2)).mp hxy
    have hk2 := (ordersLe_iff_key (h _ y.2) (h _ z.2)).mp hyz
    exact (ordersLe_iff_key (h _ x.2) (h _ z.2)).mpr (le_trans hk1 hk2)
  have htotal : ∀ x y : {o // o ∈ l},
      ((fun u v : {o // o ∈ l} => ordersLe u.1 v.1) x y ||
        (fun u v : {o // o ∈ l} => ordersLe u.1 v.1) y x) := by
    intro x y
    rcases le_total (orderKey x.1) (orderKey y.1) with hle | hle
    · simp [(ordersLe_iff_key (h _ x.2) (h _ y.2)).mpr hle]
    · simp [(ordersLe_iff_key (h _ y.2) (h _ x.2)).mpr hle]
  have hs := List.sorted_mergeSort htrans htotal l.attach
  have hmap : (l.attach.mergeSort
      (fun u v : {o // o ∈ l} => ordersLe u.1 v.1)).map Subtype.val =
      l.mergeSort ordersLe := by
    rw [List.map_mergeSort (s := ordersLe) (fun x _ y _ => rfl),
      List.attach_map_subtype_val]
  have hpw := List.Pairwise.map (S := fun a b => ordersLe a b = true)
    (Subtype.val) (fun x y hxy => hxy) hs
  rw [hmap] at hpw
  exact hpw

theorem eq_of_perm_of_pairwise {α : Type _} {R : α → α → Prop} :
    ∀ {l₁ l₂ : List α}, l₁.Perm l₂ → l₁.Pairwise R → l₂.Pairwise R →
      (∀ x ∈ l₁, ∀ y ∈ l₁, R x y → R y x → x = y) → l₁ = l₂ := by
  intro l₁
  induction l₁ with
  | nil =>
      intro l₂ hp _ _ _
      exact (hp.symm.eq_nil).symm
  | cons a t ih =>
      intro l₂ hp hs₁ hs₂ hanti
      cases l₂ with
      | nil => exact absurd hp.eq_nil (by simp)
      | cons b t₂ =>
          by_cases hab : a = b
          · subst hab
            have ht : t.Perm t₂ := (List.perm_cons a).mp hp
            have h1 := (List.pairwise_cons.mp hs₁).2
            have h2 := (List.pairwise_cons.mp hs₂).2
            have hanti' : ∀ x ∈ t, ∀ y ∈ t, R x y → R y x → x = y :=
              fun x hx y hy => hanti x (List.mem_cons_of_mem _ hx) y
                (List.mem_cons_of_mem _ hy)
            rw [ih ht h1 h2 hanti']
          · exfalso
            have hb1 : b ∈ a :: t := hp.symm.subset (by simp)
            have ha2 : a ∈ b :: t₂ := hp.subset (by simp)
            have hb_t : b ∈ t := by
              rcases List.mem_cons.mp hb1 with hx | hx
              · exact absurd hx.symm hab
              · exact hx
            have ha_t2 : a ∈ t₂ := by
              rcases List.mem_cons.mp ha2 with hx | hx
              · exact absurd hx hab
              · exact hx
            have hRab : R a b := (List.pairwise_cons.mp hs₁).1 b hb_t
            have hRba : R b a := (List.pairwise_cons.mp hs₂).1 a ha_t2
            exact hab (hanti a (by simp) b (List.mem_cons_of_mem _ hb_t)
              hRab hRba)

/-- C2.  The quote sort orders by the exact rational promotional ratio
`r = (g - p_quota) / g` (taken `0` when `g = 0`) descending, then
`grant_quota` descending, `created_at` ascending, `id` ascending — the
comparator realizes the lexicographic linear order on that key using exact
integer arithmetic — and therefore, when the order ids are pairwise
distinct, the sorted list is the same for every permutation of the same
input orders. -/
theorem sortOrders_deterministic :
    (∀ a b : RefundAlgoOrderComputed, IsNormalized a → IsNormalized b →
        (ordersLe a b = true ↔ orderKey a ≤ orderKey b)) ∧
      ∀ l₁ l₂ : List RefundAlgoOrder, l₁.Perm l₂ →
        (l₁.map RefundAlgoOrder.id).Nodup →
        sortOrders (l₁.map normalizeOrder) = sortOrders (l₂.map normalizeOrder) := by
  refine ⟨fun a b ha hb => ordersLe_iff_key ha hb, ?_⟩
  intro l₁ l₂ hperm hnodup
  have hnorm₁ : ∀ o ∈ l₁.map normalizeOrder, IsNormalized o := by
    intro o ho
    obtain ⟨x, _, rfl⟩ := List.mem_map.mp ho
    exact normalizeOrder_isNormalized x
  have hnorm₂ : ∀ o ∈ l₂.map normalizeOrder, IsNormalized o := by
    intro o ho
    obtain ⟨x, _, rfl⟩ := List.mem_map.mp ho
    exact normalizeOrder_isNormalized x
  have hpermSorted : (sortOrders (l₁.map normalizeOrder)).Perm
      (sortOrders (l₂.map normalizeOrder)) :=
    ((List.mergeSort_perm _ _).trans (hperm.map _)).trans
      (List.mergeSort_perm _ _).symm
  have hids : ((l₁.map normalizeOrder).map (·.id)).Nodup := by
    have : (l₁.map normalizeOrder).map (·.id) = l₁.map RefundAlgoOrder.id := by
      simp [normalizeOrder]
    rw [this]
    exact hnodup
  refine eq_of_perm_of_pairwise hpermSorted
    (sortOrders_pairwise _ hnorm₁) (sortOrders_pairwise _ hnorm₂) ?_
  intro x hx y hy hxy hyx
  have hx' : x ∈ l₁.map normalizeOrder := List.mem_mergeSort.mp hx
  have hy' : y ∈ l₁.map normalizeOrder := List.mem_mergeSort.mp hy
  have hkx := (ordersLe_iff_key (hnorm₁ _ hx') (hnorm₁ _ hy')).mp hxy
  have hky := (ordersLe_iff_key (hnorm₁ _ hy') (hnorm₁ _ hx')).mp hyx
  have hkeq : orderKey x = orderKey y := le_antisymm hkx hky
  exact List.inj_on_of_nodup_map hids hx' hy' (orderKey_eq_implies_id hkeq)

theorem sortOrders_deterministic_witness :
    (ordersLe (normalizeOrder ⟨"a", 100, 500000, 0⟩)
        (normalizeOrder ⟨"b", 50, 500000, 1⟩) = true ↔
      orderKey (normalizeOrder ⟨"a", 100, 500000, 0⟩) ≤
        orderKey (normalizeOrder ⟨"b", 50, 500000, 1⟩)) ∧
      sortOrders ([⟨"a", 100, 500000, 0⟩, ⟨"b", 50, 500000, 1⟩].map
        normalizeOrder) =
        sortOrders ([⟨"b", 50, 500000, 1⟩, ⟨"a", 100, 500000, 0⟩].map
          normalizeOrder) :=
  ⟨sortOrders_deterministic.1 (normalizeOrder ⟨"a", 100, 500000, 0⟩)
      (normalizeOrder ⟨"b", 50, 500000, 1⟩)
      (normalizeOrder_isNormalized ⟨"a", 100, 500000, 0⟩)
      (normalizeOrder_isNormalized ⟨"b", 50, 500000, 1⟩),
    sortOrders_deterministic.2
      ([⟨"a", 100, 500000, 0⟩, ⟨"b", 50, 500000, 1⟩] : List RefundAlgoOrder)
      ([⟨"b", 50, 500000, 1⟩, ⟨"a", 100, 500000, 0⟩] : List RefundAlgoOrder)
      (List.Perm.swap (⟨"b", 50, 500000, 1⟩ : RefundAlgoOrder)
        ⟨"a", 100, 500000, 0⟩ [])
      (by decide)⟩

/-! ## The per-user quote pipeline (src/apps/api/src/routes/users.ts,
`buildRefundQuote`), claims C3 and C6 -/

/-- A charge as returned by the card processor for `buildRefundQuote`'s
charge loop (users.ts lines 225-249). -/
structure StripeChargeIn where
  id : String
  created : Int
  payment_intent : Option String
  paid : Bool
  status : String
  amount : Int
  amount_refunded : Int
  deriving DecidableEq, Repr

/-- Source `remaining = chargeAmount > refundedAmount ? chargeAmount -
refundedAmount : 0n`. -/
def chargeRemaining (c : StripeChargeIn) : Int :=
  if c.amount > c.amount_refunded then c.amount - c.amount_refunded else 0

/-- The charge loop's accumulation of `stripeNetPaidCents`: paid, succeeded
charges contribute their `remaining` when it is positive.  (The
multi-currency guard, which aborts quote construction entirely, is not
modelled here.) -/
def stripeNetOfCharges (charges : List StripeChargeIn) : Int :=
  (charges.map (fun c =>
    if c.paid ∧ c.status = "succeeded" then
      (if chargeRemaining c > 0 then chargeRemaining c else 0)
    else 0)).sum

/-- Modelled from the spec: `withSyntheticGiftPoolOrder` is imported from
`utils/refundAlgo.ts` by users.ts and refundEstimate.ts, but its definition
is not among the provided sources.  Spec §4.3.2: if
`total_grant_from_orders < quota + used_quota`, create one synthetic order
with `paid_cents = 0`, `grant_quota = (quota + used_quota) −
total_grant_from_orders`, `created_at = 0`.  The synthetic order's id is not
specified; `"gift_pool"` is used here. -/
structure GiftPoolResult where
  orders : List RefundAlgoOrder
  gift_pool_quota : Int
  total_grant_quota : Int
  total_user_quota : Int
  deriving DecidableEq, Repr

/-- Modelled from the spec: see `GiftPoolResult`. -/
def withSyntheticGiftPoolOrder (orders : List RefundAlgoOrder)
    (totalUserQuota : Int) : GiftPoolResult :=
  let totalGrant := (orders.map (·.grant_quota)).sum
  if totalGrant < totalUserQuota then
    { orders := orders ++ [⟨"gift_pool", 0, totalUserQuota - totalGrant, 0⟩]
      gift_pool_quota := totalUserQuota - totalGrant
      total_grant_quota := totalGrant
      total_user_quota := totalUserQuota }
  else
    { orders := orders
      gift_pool_quota := 0
      total_grant_quota := totalGrant
      total_user_quota := totalUserQuota }

/-- The monetary core of `buildRefundQuote` (users.ts lines 147-366), cut at
the already-derived per-order tuples: net-paid clamp per channel, the quote
algorithm over the gift-pool-augmented orders, the clamp of the due to the
total net paid, and the provider split (lines 311-315). -/
structure QuoteCore where
  yipayNetPaidCents : Int
  stripeNetPaidCents : Int
  totalNetPaidCents : Int
  dueCentsUnclamped : Int
  dueCents : Int
  stripePlanCents : Int
  yipayPlanCents : Int
  deriving DecidableEq, Repr

def buildRefundQuoteCore (quota usedQuota yipayPaidCents yipayRefundedCents :
    Int) (charges : List StripeChargeIn) (algoOrders : List RefundAlgoOrder) :
    QuoteCore :=
  let yipayNet := if yipayPaidCents > yipayRefundedCents then
    yipayPaidCents - yipayRefundedCents else 0
  let stripeNet := stripeNetOfCharges charges
  let totalNet := stripeNet + yipayNet
  let gp := withSyntheticGiftPoolOrder algoOrders (quota + usedQuota)
  let algo := computeRefundDueV2 gp.orders usedQuota
  let dueUnclamped := algo.due_cents
  let due := if dueUnclamped > totalNet then totalNet else dueUnclamped
  let stripePlan := if due > stripeNet then stripeNet else due
  { yipayNetPaidCents := yipayNet
    stripeNetPaidCents := stripeNet
    totalNetPaidCents := totalNet
    dueCentsUnclamped := dueUnclamped
    dueCents := due
    stripePlanCents := stripePlan
    yipayPlanCents := due - stripePlan }

theorem consumeLoop_total_nonneg (U : Int) (l : List RefundAlgoOrderComputed)
    (acc : Int) : 0 ≤ (consumeLoop U l acc).2.2 := by
  induction l generalizing acc with
  | nil => simp [consumeLoop]
  | cons o rest ih =>
      simp only [consumeLoop]
      set u := (if U - acc ≤ 0 then 0
        else if U - acc ≥ o.grant_quota then o.grant_quota else U - acc)
        with hu
      have h1 : 0 ≤ (if o.paid_quota > u then o.paid_quota - u else 0) := by
        split_ifs <;> omega
      have h2 := ih (acc + u)
      omega

theorem computeRefundDueV2_nonneg (orders : List RefundAlgoOrder)
    (used : Int) : 0 ≤ (computeRefundDueV2 orders used).due_quota ∧
      0 ≤ (computeRefundDueV2 orders used).due_cents := by
  have h := consumeLoop_total_nonneg (clampNonNegative used)
    (sortOrders (orders.map normalizeOrder)) 0
  refine ⟨by simpa [computeRefundDueV2] using h, ?_⟩
  simp only [computeRefundDueV2, quotaToCentsFloor, QUOTA_PER_CENT]
  exact Int.tdiv_nonneg h (by norm_num)

theorem stripeNetOfCharges_nonneg (charges : List StripeChargeIn) :
    0 ≤ stripeNetOfCharges charges := by
  unfold stripeNetOfCharges
  apply List.sum_nonneg
  intro x hx
  obtain ⟨c, _, rfl⟩ := List.mem_map.mp hx
  split_ifs <;> omega

/-- C3.  The quote clamps `due_cents` to `min(due_cents_unclamped,
total_net_paid_cents)`, so `0 ≤ due_cents ≤ total_net_paid_cents` always,
and splits it as `stripe_cents = min(due_cents, stripe_net_paid_cents)`,
`yipay_cents = due_cents − stripe_cents`; both parts are non-negative and
sum to `due_cents`. -/
theorem buildRefundQuoteCore_clamp_split (quota usedQuota yipayPaid
    yipayRefunded : Int) (charges : List StripeChargeIn)
    (orders : List RefundAlgoOrder) :
    (buildRefundQuoteCore quota usedQuota yipayPaid yipayRefunded charges
        orders).dueCents =
      min (buildRefundQuoteCore quota usedQuota yipayPaid yipayRefunded
        charges orders).dueCentsUnclamped
        (buildRefundQuoteCore quota usedQuota yipayPaid yipayRefunded charges
          orders).totalNetPaidCents ∧
    0 ≤ (buildRefundQuoteCore quota usedQuota yipayPaid yipayRefunded charges
      orders).dueCents ∧
    (buildRefundQuoteCore quota usedQuota yipayPaid yipayRefunded charges
      orders).dueCents ≤
      (buildRefundQuoteCore quota usedQuota yipayPaid yipayRefunded charges
        orders).totalNetPaidCents ∧
    (buildRefundQuoteCore quota usedQuota yipayPaid yipayRefunded charges
      orders).stripePlanCents =
      min (buildRefundQuoteCore quota usedQuota yipayPaid yipayRefunded
        charges orders).dueCents
        (buildRefundQuoteCore quota usedQuota yipayPaid yipayRefunded charges
          orders).stripeNetPaidCents ∧
    0 ≤ (buildRefundQuoteCore quota usedQuota yipayPaid yipayRefunded charges
      orders).stripePlanCents ∧
    0 ≤ (buildRefundQuoteCore quota usedQuota yipayPaid yipayRefunded charges
      orders).yipayPlanCents ∧
    (buildRefundQuoteCore quota usedQuota yipayPaid yipayRefunded charges
        orders).stripePlanCents +
      (buildRefundQuoteCore quota usedQuota yipayPaid yipayRefunded charges
        orders).yipayPlanCents =
      (buildRefundQuoteCore quota usedQuota yipayPaid yipayRefunded charges
        orders).dueCents := by
  have hdue := (computeRefundDueV2_nonneg
    (withSyntheticGiftPoolOrder orders (quota + usedQuota)).orders
    usedQuota).2
  have hstripe := stripeNetOfCharges_nonneg charges
  simp only [buildRefundQuoteCore]
  refine ⟨by omega, by omega, by omega, by omega, by omega, by omega, by omega⟩

/-! ## Claim C6: `quota = 0` and the `nothing_to_refund` guard -/

/-- The amount-override and `nothing_to_refund` decision of
`POST /:userId/refund` (users.ts lines 532-548): with no override the gross
is the quote's due; a requested amount must be positive and is capped at the
due; a non-positive gross is rejected with `nothing_to_refund` (409). -/
def refundRouteDecision (dueCents : Int) (requested : Option Int) :
    Except String Int :=
  match requested with
  | some r =>
      if r ≤ 0 then .error "invalid_amount"
      else
        let gross := if r > dueCents then dueCents else r
        if gross ≤ 0 then .error "nothing_to_refund" else .ok gross
  | none =>
      if dueCents ≤ 0 then .error "nothing_to_refund" else .ok dueCents

/-- C6 counterexample: a user with `quota = 0` and `used_quota = 0`, one
yipay top-up that paid 100 cents and granted 500000 quota (none of it
consumed), and an empty refund ledger.  The quote computes
`due_cents = 100`, not `0`, and the refund route proceeds with a 100-cent
refund instead of returning `nothing_to_refund`. -/
theorem quota_zero_due_counterexample :
    (buildRefundQuoteCore 0 0 100 0 []
        [⟨"yipay:t1", 100, 500000, 0⟩]).dueCents = 100 ∧
      refundRouteDecision
        (buildRefundQuoteCore 0 0 100 0 []
          [⟨"yipay:t1", 100, 500000, 0⟩]).dueCents none = .ok 100 := by
  have h : (buildRefundQuoteCore 0 0 100 0 []
      [⟨"yipay:t1", 100, 500000, 0⟩]).dueCents = 100 := by
    simp [buildRefundQuoteCore, stripeNetOfCharges,
      withSyntheticGiftPoolOrder, computeRefundDueV2, sortOrders,
      normalizeOrder, consumeLoop, clampNonNegative, centsToQuota,
      quotaToCentsFloor, QUOTA_PER_CENT]
    decide
  exact ⟨h, by rw [h]; rfl⟩

theorem consumeLoop_all_covered (U : Int) (l : List RefundAlgoOrderComputed) :
    ∀ acc : Int,
      (∀ o ∈ l, 0 ≤ o.paid_quota ∧ o.paid_quota ≤ o.grant_quota) →
      (l.map (·.grant_quota)).sum ≤ U - acc →
      (consumeLoop U l acc).2.2 = 0 := by
  induction l with
  | nil => intro acc _ _; simp [consumeLoop]
  | cons o rest ih =>
      intro acc h hsum
      obtain ⟨hp0, hpg⟩ := h o (by simp)
      have hg0 : 0 ≤ o.grant_quota := le_trans hp0 hpg
      have hsr : 0 ≤ (rest.map (·.grant_quota)).sum := by
        apply List.sum_nonneg
        intro x hx
        obtain ⟨c, hc, rfl⟩ := List.mem_map.mp hx
        obtain ⟨h1, h2⟩ := h c (List.mem_cons_of_mem _ hc)
        omega
      simp only [List.map_cons, List.sum_cons] at hsum
      simp only [consumeLoop]
      have hu : (if U - acc ≤ 0 then 0
          else if U - acc ≥ o.grant_quota then o.grant_quota else U - acc) =
          o.grant_quota := by
        split_ifs <;> omega
      rw [hu, if_neg (by omega)]
      have := ih (acc + o.grant_quota)
        (fun x hx => h x (List.mem_cons_of_mem _ hx)) (by omega)
      omega

theorem normalized_grant_sum (l : List RefundAlgoOrder)
    (h : ∀ o ∈ l, 0 ≤ o.grant_quota) :
    ((l.map normalizeOrder).map (·.grant_quota)).sum =
      (l.map (·.grant_quota)).sum := by
  rw [List.map_map]
  congr 1
  apply List.map_congr_left
  intro o ho
  simp only [Function.comp_apply, normalizeOrder, clampNonNegative]
  rw [if_neg (by have := h o ho; omega)]

theorem sortOrders_grant_sum (l : List RefundAlgoOrderComputed) :
    ((sortOrders l).map (·.grant_quota)).sum =
      (l.map (·.grant_quota)).sum :=
  ((List.mergeSort_perm l ordersLe).map (·.grant_quota)).sum_eq

theorem computeRefundDueV2_zero_of_covered (orders : List RefundAlgoOrder)
    (used : Int)
    (h : ∀ o ∈ orders, 0 ≤ o.paid_cents ∧
      o.paid_cents * 5000 ≤ o.grant_quota)
    (hsum : (orders.map (·.grant_quota)).sum ≤ used) (hu : 0 ≤ used) :
    (computeRefundDueV2 orders used).due_quota = 0 ∧
      (computeRefundDueV2 orders used).due_cents = 0 := by
  have hg : ∀ o ∈ orders, 0 ≤ o.grant_quota := by
    intro o ho
    obtain ⟨h1, h2⟩ := h o ho
    omega
  have hsorted : ∀ o ∈ sortOrders (orders.map normalizeOrder),
      0 ≤ o.paid_quota ∧ o.paid_quota ≤ o.grant_quota := by
    intro o ho
    have hmem : o ∈ orders.map normalizeOrder :=
      ((List.mergeSort_perm _ ordersLe).mem_iff).mp ho
    obtain ⟨x, hx, rfl⟩ := List.mem_map.mp hmem
    obtain ⟨h1, h2⟩ := h x hx
    constructor
    · simp only [normalizeOrder, centsToQuota, clampNonNegative,
        QUOTA_PER_CENT]
      split_ifs <;> omega
    · simp only [normalizeOrder, centsToQuota, clampNonNegative,
        QUOTA_PER_CENT]
      split_ifs <;> omega
  have hsum' :
      ((sortOrders (orders.map normalizeOrder)).map (·.grant_quota)).sum ≤
        used - 0 := by
    rw [sortOrders_grant_sum, normalized_grant_sum orders hg]
    omega
  have hz := consumeLoop_all_covered (clampNonNegative used)
    (sortOrders (orders.map normalizeOrder)) 0 hsorted
    (by rw [clampNonNegative_eq_max]; omega)
  constructor
  · simpa [computeRefundDueV2] using hz
  · have : (computeRefundDueV2 orders used).due_cents =
        quotaToCentsFloor (consumeLoop (clampNonNegative used)
          (sortOrders (orders.map normalizeOrder)) 0).2.2 := by
      simp [computeRefundDueV2]
    rw [this, hz]
    rfl

/-- C6 amended.  For a user with `quota = 0` whose derived order tuples are
consistent with the balance — every order grants at least what was paid
(`paid_cents * 5000 ≤ grant_quota`, with `paid_cents ≥ 0`) and the total
remaining grant does not exceed `used_quota` (which grant conservation
yields when `quota = 0`) — the quote's `due_cents` is `0` and
`POST /:userId/refund` without an amount override returns the 409 error
`nothing_to_refund`.  (Without the consistency hypotheses the claim is
false: see the counterexample.) -/
theorem quota_zero_consistent_nothing_to_refund (usedQuota yipayPaid
    yipayRefunded : Int) (charges : List StripeChargeIn)
    (orders : List RefundAlgoOrder)
    (h : ∀ o ∈ orders, 0 ≤ o.paid_cents ∧
      o.paid_cents * 5000 ≤ o.grant_quota)
    (hsum : (orders.map (·.grant_quota)).sum ≤ usedQuota)
    (hu : 0 ≤ usedQuota) :
    (buildRefundQuoteCore 0 usedQuota yipayPaid yipayRefunded charges
      orders).dueCents = 0 ∧
    refundRouteDecision (buildRefundQuoteCore 0 usedQuota yipayPaid
      yipayRefunded charges orders).dueCents none =
      .error "nothing_to_refund" := by
  have hzero : (computeRefundDueV2
      (withSyntheticGiftPoolOrder orders (0 + usedQuota)).orders
      usedQuota).due_cents = 0 := by
    have h0 : (0 : Int) + usedQuota = usedQuota := by omega
    rw [h0]
    by_cases hlt : (orders.map (·.grant_quota)).sum < usedQuota
    · have horders : (withSyntheticGiftPoolOrder orders usedQuota).orders =
          orders ++ [⟨"gift_pool", 0,
            usedQuota - (orders.map (·.grant_quota)).sum, 0⟩] := by
        simp [withSyntheticGiftPoolOrder, hlt]
      rw [horders]
      refine (computeRefundDueV2_zero_of_covered _ usedQuota ?_ ?_ hu).2
      · intro o ho
        rcases List.mem_append.mp ho with hx | hx
        · exact h o hx
        · simp only [List.mem_singleton] at hx
          subst hx
          refine ⟨le_refl 0, ?_⟩
          simp only []
          omega
      · simp only [List.map_append, List.sum_append, List.map_cons,
          List.map_nil, List.sum_cons, List.sum_nil]
        omega
    · have horders : (withSyntheticGiftPoolOrder orders usedQuota).orders =
          orders := by
        simp [withSyntheticGiftPoolOrder, hlt]
      rw [horders]
      exact (computeRefundDueV2_zero_of_covered orders usedQuota h hsum hu).2
  have hstripe := stripeNetOfCharges_nonneg charges
  have hdue : (buildRefundQuoteCore 0 usedQuota yipayPaid yipayRefunded
      charges orders).dueCents = 0 := by
    simp only [buildRefundQuoteCore, hzero]
    split_ifs <;> omega
  exact ⟨hdue, by rw [hdue]; rfl⟩

theorem quota_zero_consistent_nothing_to_refund_witness :
    (∀ o ∈ ([⟨"yipay:t1", 100, 500000, 0⟩] : List RefundAlgoOrder),
      0 ≤ o.paid_cents ∧ o.paid_cents * 5000 ≤ o.grant_quota) ∧
    (buildRefundQuoteCore 0 500000 100 0 []
      [⟨"yipay:t1", 100, 500000, 0⟩]).dueCents = 0 ∧
    refundRouteDecision (buildRefundQuoteCore 0 500000 100 0 []
      [⟨"yipay:t1", 100, 500000, 0⟩]).dueCents none =
      .error "nothing_to_refund" :=
  ⟨by decide,
    quota_zero_consistent_nothing_to_refund 500000 100 0 []
      [⟨"yipay:t1", 100, 500000, 0⟩] (by decide) (by decide) (by decide)⟩

/-! ## Claims C4 and C5: the batch execution engine
(src/apps/api/src/routes/users.ts, `POST /:userId/refund`) -/

/-- Source `allocateQuotaDelta` (users.ts lines 747-752): proportional integer
share of the remaining quota delta, with the full remainder assigned when
the leg covers all remaining cents. -/
def allocateQuotaDelta (remainingCents remainingQuotaDelta amountCents :
    Int) : Int :=
  if amountCents ≤ 0 then 0
  else if amountCents ≥ remainingCents then remainingQuotaDelta
  else if remainingCents ≤ 0 then 0
  else (remainingQuotaDelta * amountCents).tdiv remainingCents

inductive RefundLogStatus where
  | pending
  | succeeded
  | failed
  deriving DecidableEq, Repr

/-- The fields of a RefundLog row relevant to the execution protocol. -/
structure RefundLogRow where
  amount_cents : Int
  quota_delta : Int
  status : RefundLogStatus
  error_message : Option String
  deriving DecidableEq, Repr

/-- The mutable state of one refund batch: the user's quota row, the
refund audit log, and the loop variables `remainingCents` /
`remainingQuotaDelta`. -/
structure BatchState where
  userQuota : Int
  logs : List RefundLogRow
  remainingCents : Int
  remainingQuotaDelta : Int
  deriving DecidableEq, Repr

/-- One leg of the batch (users.ts lines 786-887 for card legs, 903-1017
for aggregator legs; both have the same reserve → log → call → settle
shape).  `refundable` is the leg target's remaining refundable cents;
`outcome` is `none` when the provider call succeeds and `some e` when it
throws `e`.  Returns the post-leg state and `some error` when the batch
aborts.  The loop's `break` on exhausted `remainingCents` and `continue` on
a non-refundable target leave the state unchanged.  A reserve whose
conditional `UPDATE … WHERE quota ≥ delta` matches no row aborts with
`insufficient_user_quota` before any log row is written.  On provider
failure the reserve is released (`quota = quota + delta`), the pending row
is updated to `failed` with the error message, and the error is rethrown. -/
def execLeg (st : BatchState) (refundable : Int) (outcome : Option String) :
    BatchState × Option String :=
  if st.remainingCents ≤ 0 then (st, none)
  else if refundable ≤ 0 then (st, none)
  else
    let amountCents := if st.remainingCents > refundable then refundable
      else st.remainingCents
    let deltaQuota := allocateQuotaDelta st.remainingCents
      st.remainingQuotaDelta amountCents
    if deltaQuota > 0 ∧ st.userQuota < deltaQuota then
      (st, some "insufficient_user_quota")
    else
      let quotaAfterReserve := if deltaQuota > 0 then
        st.userQuota - deltaQuota else st.userQuota
      match outcome with
      | none =>
          ({ userQuota := quotaAfterReserve
             logs := st.logs ++
               [⟨amountCents, deltaQuota, .succeeded, none⟩]
             remainingCents := st.remainingCents - amountCents
             remainingQuotaDelta := st.remainingQuotaDelta - deltaQuota },
            none)
      | some e =>
          ({ userQuota := if deltaQuota > 0 then quotaAfterReserve + deltaQuota
               else quotaAfterReserve
             logs := st.logs ++
               [⟨amountCents, deltaQuota, .failed, some e⟩]
             remainingCents := st.remainingCents
             remainingQuotaDelta := st.remainingQuotaDelta },
            some e)

/-- The batch: legs run strictly in sequence; the first aborting leg stops
the batch, surfacing its error with the state as mutated so far. -/
def runBatch (st : BatchState) :
    List (Int × Option String) → BatchState × Option String
  | [] => (st, none)
  | leg :: rest =>
      let r := execLeg st leg.1 leg.2
      match r.2 with
      | some e => (r.1, some e)
      | none => runBatch r.1 rest

theorem allocateQuotaDelta_bounds (rc rqd a : Int) (h1 : 0 < a)
    (h2 : a ≤ rc) (h3 : 0 ≤ rqd) :
    0 ≤ allocateQuotaDelta rc rqd a ∧ allocateQuotaDelta rc rqd a ≤ rqd := by
  unfold allocateQuotaDelta
  rw [if_neg (by omega)]
  by_cases hge : a ≥ rc
  · rw [if_pos hge]
    omega
  · rw [if_neg hge, if_neg (by omega)]
    have hrc : (0 : Int) < rc := by omega
    have hnn : (0 : Int) ≤ rqd * a := mul_nonneg h3 (by omega)
    have heq : (rqd * a).tdiv rc = rqd * a / rc :=
      Int.tdiv_eq_ediv hnn (by omega)
    rw [heq]
    constructor
    · exact Int.ediv_nonneg hnn (by omega)
    · calc rqd * a / rc ≤ rqd * rc / rc :=
            Int.ediv_le_ediv hrc (mul_le_mul_of_nonneg_left h2 h3)
        _ = rqd := Int.mul_ediv_cancel rqd (by omega)

/-- The batch invariant of C4. -/
def BatchInv (st : BatchState) : Prop :=
  0 ≤ st.remainingCents ∧ 0 ≤ st.remainingQuotaDelta ∧
    (st.remainingCents = 0 → st.remainingQuotaDelta = 0)

theorem execLeg_preserves_inv (st : BatchState) (r : Int)
    (oc : Option String) (h : BatchInv st) : BatchInv (execLeg st r oc).1 := by
  obtain ⟨h1, h2, h3⟩ := h
  by_cases hrc : st.remainingCents ≤ 0
  · simp only [execLeg, if_pos hrc]
    exact ⟨h1, h2, h3⟩
  by_cases hr : r ≤ 0
  · simp only [execLeg, if_neg hrc, if_pos hr]
    exact ⟨h1, h2, h3⟩
  have ha1 : 0 < (if st.remainingCents > r then r else st.remainingCents) := by
    split_ifs <;> omega
  have ha2 : (if st.remainingCents > r then r else st.remainingCents) ≤
      st.remainingCents := by
    split_ifs <;> omega
  obtain ⟨hd0, hdle⟩ := allocateQuotaDelta_bounds st.remainingCents
    st.remainingQuotaDelta _ ha1 ha2 h2
  by_cases hres : allocateQuotaDelta st.remainingCents st.remainingQuotaDelta
      (if st.remainingCents > r then r else st.remainingCents) > 0 ∧
      st.userQuota < allocateQuotaDelta st.remainingCents
        st.remainingQuotaDelta
        (if st.remainingCents > r then r else st.remainingCents)
  · simp only [execLeg, if_neg hrc, if_neg hr, if_pos hres]
    exact ⟨h1, h2, h3⟩
  cases oc with
  | some e =>
      simp only [execLeg, if_neg hrc, if_neg hr, if_neg hres]
      exact ⟨h1, h2, h3⟩
  | none =>
      simp only [execLeg, if_neg hrc, if_neg hr, if_neg hres]
      refine ⟨?_, ?_, ?_⟩ <;> dsimp only
      · omega
      · omega
      intro hz
      have hareq : (if st.remainingCents > r then r
          else st.remainingCents) = st.remainingCents := by omega
      have hda : allocateQuotaDelta st.remainingCents st.remainingQuotaDelta
          (if st.remainingCents > r then r else st.remainingCents) =
          st.remainingQuotaDelta := by
        rw [hareq]
        unfold allocateQuotaDelta
        rw [if_neg (by omega), if_pos (by omega)]
      omega

theorem runBatch_preserves_inv (legs : List (Int × Option String))
    (st : BatchState) (h : BatchInv st) : BatchInv (runBatch st legs).1 := by
  induction legs generalizing st with
  | nil => exact h
  | cons leg rest ih =>
      simp only [runBatch]
      have hleg := execLeg_preserves_inv st leg.1 leg.2 h
      cases hoc : (execLeg st leg.1 leg.2).2 with
      | none => exact ih _ hleg
      | some e => exact hleg

/-- C4.  Each leg's `delta_quota` follows the `allocateQuotaDelta` formula
(`remaining_quota_delta` when the leg covers `remaining_cents`, otherwise
`remaining_quota_delta * amount_cents / remaining_cents` by truncating
integer division); a successfully settled leg decreases `remaining_cents`
by exactly `amount_cents` and `remaining_quota_delta` by exactly
`delta_quota`; and starting from `remaining_cents > 0`,
`remaining_quota_delta ≥ 0`, after any sequence of legs
`remaining_quota_delta` is never negative and `remaining_cents = 0` forces
`remaining_quota_delta = 0` (the completed batch ends with both at 0). -/
theorem refundBatch_quota_delta_correct :
    (∀ rc rqd a : Int, 0 < a →
      (a ≥ rc → allocateQuotaDelta rc rqd a = rqd) ∧
      (a < rc → allocateQuotaDelta rc rqd a = (rqd * a).tdiv rc)) ∧
    (∀ st : BatchState, ∀ r : Int, 0 < st.remainingCents → 0 < r →
      ¬(allocateQuotaDelta st.remainingCents st.remainingQuotaDelta
          (min st.remainingCents r) > 0 ∧
        st.userQuota < allocateQuotaDelta st.remainingCents
          st.remainingQuotaDelta (min st.remainingCents r)) →
      (execLeg st r none).1.remainingCents =
          st.remainingCents - min st.remainingCents r ∧
        (execLeg st r none).1.remainingQuotaDelta =
          st.remainingQuotaDelta - allocateQuotaDelta st.remainingCents
            st.remainingQuotaDelta (min st.remainingCents r)) ∧
    (∀ legs : List (Int × Option String), ∀ st : BatchState,
      0 < st.remainingCents → 0 ≤ st.remainingQuotaDelta →
      0 ≤ (runBatch st legs).1.remainingCents ∧
        0 ≤ (runBatch st legs).1.remainingQuotaDelta ∧
        ((runBatch st legs).1.remainingCents = 0 →
          (runBatch st legs).1.remainingQuotaDelta = 0)) := by
  refine ⟨?_, ?_, ?_⟩
  · intro rc rqd a ha
    constructor
    · intro hge
      unfold allocateQuotaDelta
      rw [if_neg (by omega), if_pos hge]
    · intro hlt
      unfold allocateQuotaDelta
      rw [if_neg (by omega), if_neg (by omega), if_neg (by omega)]
  · intro st r hrc hr hres
    have hmin : (if st.remainingCents > r then r else st.remainingCents) =
        min st.remainingCents r := by
      split_ifs <;> omega
    simp only [execLeg]
    rw [if_neg (by omega), if_neg (by omega), hmin, if_neg hres]
    exact ⟨rfl, rfl⟩
  · intro legs st h1 h2
    exact runBatch_preserves_inv legs st ⟨by omega, h2, by omega⟩

theorem refundBatch_quota_delta_correct_witness :
    ((0:Int) < 50 ∧ allocateQuotaDelta 100 500000 50 = 250000) ∧
      ((execLeg ⟨600000, [], 100, 500000⟩ 40 none).1.remainingCents = 60 ∧
        (execLeg ⟨600000, [], 100, 500000⟩ 40 none).1.remainingQuotaDelta =
          300000) ∧
      ((runBatch ⟨600000, [], 100, 500000⟩ [(40, none), (60, none)]
          ).1.remainingCents = 0 →
        (runBatch ⟨600000, [], 100, 500000⟩ [(40, none), (60, none)]
          ).1.remainingQuotaDelta = 0) := by
  refine ⟨⟨by decide, ?_⟩, ?_, ?_⟩
  · have h := (refundBatch_quota_delta_correct.1 100 500000 50
      (by decide)).2 (by decide)
    rw [h]
    decide
  · have h := refundBatch_quota_delta_correct.2.1 ⟨600000, [], 100, 500000⟩
      40 (by decide) (by decide) (by decide)
    constructor
    · rw [h.1]
      decide
    · rw [h.2]
      decide
  · exact (refundBatch_quota_delta_correct.2.2 [(40, none), (60, none)]
      ⟨600000, [], 100, 500000⟩ (by decide) (by decide)).2.2

/-- C5.  When a leg's provider call fails (after a successful reserve), the
engine adds the leg's `delta_quota` back to the user's quota (the
compensating release leaves the quota at its pre-leg value), appends only
one log row — the leg's pending RefundLog updated to `failed` carrying the
error message — leaves every earlier log row and the loop state untouched,
and aborts the batch surfacing the error, so legs already settled before
the failure stay durably refunded. -/
theorem execLeg_provider_failure (st : BatchState) (r : Int) (e : String)
    (rest : List (Int × Option String))
    (hrc : 0 < st.remainingCents) (hr : 0 < r)
    (hres : ¬(allocateQuotaDelta st.remainingCents st.remainingQuotaDelta
        (if st.remainingCents > r then r else st.remainingCents) > 0 ∧
      st.userQuota < allocateQuotaDelta st.remainingCents
        st.remainingQuotaDelta
        (if st.remainingCents > r then r else st.remainingCents))) :
    (execLeg st r (some e)).2 = some e ∧
      (execLeg st r (some e)).1.userQuota = st.userQuota ∧
      (execLeg st r (some e)).1.remainingCents = st.remainingCents ∧
      (execLeg st r (some e)).1.remainingQuotaDelta =
        st.remainingQuotaDelta ∧
      (execLeg st r (some e)).1.logs = st.logs ++
        [⟨if st.remainingCents > r then r else st.remainingCents,
          allocateQuotaDelta st.remainingCents st.remainingQuotaDelta
            (if st.remainingCents > r then r else st.remainingCents),
          .failed, some e⟩] ∧
      runBatch st ((r, some e) :: rest) = ((execLeg st r (some e)).1, some e) := by
  have hsnd : (execLeg st r (some e)).2 = some e := by
    simp only [execLeg]
    rw [if_neg (by omega), if_neg (by omega), if_neg hres]
  refine ⟨hsnd, ?_, ?_, ?_, ?_, ?_⟩
  · simp only [execLeg]
    rw [if_neg (by omega), if_neg (by omega), if_neg hres]
    simp only []
    split_ifs <;> omega
  · simp only [execLeg]
    rw [if_neg (by omega), if_neg (by omega), if_neg hres]
  · simp only [execLeg]
    rw [if_neg (by omega), if_neg (by omega), if_neg hres]
  · simp only [execLeg]
    rw [if_neg (by omega), if_neg (by omega), if_neg hres]
  · simp only [runBatch]
    rw [hsnd]

theorem execLeg_provider_failure_witness :
    ((0:Int) < 100 ∧ (0:Int) < 40) ∧
      (execLeg ⟨600000, [⟨10, 50000, .succeeded, none⟩], 100, 500000⟩ 40
        (some "provider_down")).1.userQuota = 600000 ∧
      (execLeg ⟨600000, [⟨10, 50000, .succeeded, none⟩], 100, 500000⟩ 40
        (some "provider_down")).1.logs =
        [⟨10, 50000, .succeeded, none⟩,
          ⟨40, 200000, .failed, some "provider_down"⟩] := by
  have h := execLeg_provider_failure
    ⟨600000, [⟨10, 50000, .succeeded, none⟩], 100, 500000⟩ 40
    "provider_down" [] (by decide) (by decide) (by decide)
  refine ⟨⟨by decide, by decide⟩, h.2.1, ?_⟩
  rw [h.2.2.2.2.1]
  decide

/-! ## Claim C9: the card processor refund adapter
(src/apps/api/src/providers/stripe.ts, `stripeRefund`) -/

/-- Source `StripeRefundRequest` (absent fields are `none`; JavaScript treats
`undefined` and the empty string alike as absent). -/
structure StripeRefundRequest where
  paymentIntentId : Option String
  chargeId : Option String
  amountMinor : Option Int
  idempotencyKey : String
  deriving DecidableEq, Repr

/-- The parameters `stripeRefund` forwards to the provider's
`refunds.create` call (an absent `amount` means a full-remaining refund on
the provider side). -/
structure StripeRefundCreateParams where
  payment_intent : Option String
  charge : Option String
  amount : Option Int
  idempotencyKey : String
  deriving DecidableEq, Repr

/-- Source `stripeRefund` (stripe.ts lines 41-62), its pure validation and
forwarding behaviour: the call fails only when neither `payment_intent`
nor `charge` is provided; otherwise all fields are forwarded as given. -/
def stripeRefund (req : StripeRefundRequest) :
    Except String StripeRefundCreateParams :=
  if req.paymentIntentId = none ∧ req.chargeId = none then
    .error "Missing Stripe payment_intent or charge id"
  else
    .ok ⟨req.paymentIntentId, req.chargeId, req.amountMinor,
      req.idempotencyKey⟩

/-- C9 counterexample: a request providing both `payment_intent` and
`charge` is not rejected — `stripeRefund` forwards both identifiers to the
provider. -/
theorem stripeRefund_both_ids_forwarded :
    stripeRefund ⟨some "pi_1", some "ch_1", none, "key1"⟩ =
      .ok ⟨some "pi_1", some "ch_1", none, "key1"⟩ := by
  rfl

/-- C9 amended.  The adapter requires at least one of `payment_intent` or
`charge`: a call providing neither fails with an error (nothing is
forwarded); any other call — including one providing both — is forwarded
unchanged, and the forwarded `amount` is absent exactly when `amount_minor`
was absent, in which case the provider refunds the full remaining amount. -/
theorem stripeRefund_requires_target (req : StripeRefundRequest) :
    (req.paymentIntentId = none ∧ req.chargeId = none →
      stripeRefund req = .error "Missing Stripe payment_intent or charge id") ∧
    (¬(req.paymentIntentId = none ∧ req.chargeId = none) →
      stripeRefund req = .ok ⟨req.paymentIntentId, req.chargeId,
        req.amountMinor, req.idempotencyKey⟩) := by
  constructor
  · intro h
    simp only [stripeRefund, if_pos h]
  · intro h
    simp only [stripeRefund, if_neg h]

theorem stripeRefund_requires_target_witness :
    stripeRefund ⟨none, none, none, "k"⟩ =
        .error "Missing Stripe payment_intent or charge id" ∧
      stripeRefund ⟨none, some "ch_1", some 500, "k"⟩ =
        .ok ⟨none, some "ch_1", some 500, "k"⟩ :=
  ⟨(stripeRefund_requires_target ⟨none, none, none, "k"⟩).1 ⟨rfl, rfl⟩,
    (stripeRefund_requires_target ⟨none, some "ch_1", some 500, "k"⟩).2
      (by simp)⟩

/-! ## Claim C10: the public redaction walker
(src/apps/api/src/routes/publicRefunds.ts, `redactForPublic`) -/

/-- JSON values. -/
inductive Json where
  | null
  | bool (b : Bool)
  | num (n : Int)
  | str (s : String)
  | arr (items : List Json)
  | obj (entries : List (String × Json))

/-- Source `publicSensitiveKeys`. -/
def publicSensitiveKeys : List String :=
  ["topup_trade_no", "trade_no", "stripe_customer", "stripe_charge_id",
    "stripe_payment_intent_id", "charge_id", "payment_intent",
    "provider_refund_no", "out_refund_no"]

/-- Source `key && publicSensitiveKeys.has(key)`. -/
def keyIsSensitive : Option String → Bool
  | some k => k ∈ publicSensitiveKeys
  | none => false

/-- Source `Array.isArray(v)`. -/
def Json.isArr : Json → Bool
  | .arr _ => true
  | _ => false

/-- The `length` of an array value. -/
def Json.arrLen : Json → Int
  | .arr l => l.length
  | _ => 0

/-- Source `redactForPublic(value, key?)` (publicRefunds.ts lines 25-61),
parametrized by the string scrubber `rt` (the `redactText` regex pass,
whose exact behaviour no claim depends on): sensitive keys are replaced by
`"[redacted]"`; strings are scrubbed; arrays longer than 50 collapse to
`{count, truncated}` and shorter ones are walked element-wise without a
key; objects are walked entry-wise, with the keys `refundable_charges`,
`refunds` and `refunded_by_topup` holding arrays replaced by `{count}`
regardless of length.  (The `attach` calls only carry the membership facts
for termination; see `redactForPublic_arr` / `redactForPublic_obj` for the
plain-`map` reading.) -/
def redactForPublic (rt : String → String) (v : Json) (key : Option String) :
    Json :=
  if keyIsSensitive key then .str "[redacted]"
  else
    match v with
    | .str s => .str (rt s)
    | .arr items =>
        if items.length > 50 then
          .obj [("count", .num items.length), ("truncated", .bool true)]
        else .arr (items.attach.map (fun x => redactForPublic rt x.1 none))
    | .obj entries =>
        .obj (entries.attach.map (fun e =>
          if e.1.1 ∈ publicSensitiveKeys then (e.1.1, .str "[redacted]")
          else if (e.1.1 = "refundable_charges" ∨ e.1.1 = "refunds" ∨
              e.1.1 = "refunded_by_topup") ∧ e.1.2.isArr then
            (e.1.1, .obj [("count", .num e.1.2.arrLen)])
          else (e.1.1, redactForPublic rt e.1.2 (some e.1.1))))
    | x => x
termination_by sizeOf v
decreasing_by
  · have h1 := List.sizeOf_lt_of_mem x.2
    simp only [Json.arr.sizeOf_spec]
    omega
  · have h1 := List.sizeOf_lt_of_mem e.2
    have h2 : sizeOf e.1.2 < sizeOf e.1 := by
      obtain ⟨⟨a, b⟩, hm⟩ := e
      simp only [Prod.mk.sizeOf_spec]
      omega
    simp only [Json.obj.sizeOf_spec]
    omega

/-- The per-entry transform of `redactForPublic`'s object case. -/
def redactEntryWith (rt : String → String) (e : String × Json) :
    String × Json :=
  if e.1 ∈ publicSensitiveKeys then (e.1, .str "[redacted]")
  else if (e.1 = "refundable_charges" ∨ e.1 = "refunds" ∨
      e.1 = "refunded_by_topup") ∧ e.2.isArr then
    (e.1, .obj [("count", .num e.2.arrLen)])
  else (e.1, redactForPublic rt e.2 (some e.1))

theorem redactForPublic_arr (rt : String → String) (items : List Json)
    (key : Option String) (hk : keyIsSensitive key = false)
    (h : ¬ items.length > 50) :
    redactForPublic rt (.arr items) key =
      .arr (items.map (fun x => redactForPublic rt x none)) := by
  rw [redactForPublic, hk]
  simp only [Bool.false_eq_true, if_false, if_neg h]
  congr 1
  exact List.attach_map_val items (fun x => redactForPublic rt x none)

theorem redactForPublic_obj (rt : String → String)
    (entries : List (String × Json)) (key : Option String)
    (hk : keyIsSensitive key = false) :
    redactForPublic rt (.obj entries) key =
      .obj (entries.map (redactEntryWith rt)) := by
  rw [redactForPublic, hk]
  simp only [Bool.false_eq_true, if_false]
  congr 1
  exact List.attach_map_val entries (redactEntryWith rt)

/-- C10.  In the walker's object case, an array under one of the keys
`refundable_charges`, `refunds`, `refunded_by_topup` is replaced by
`{count: length}` whatever its length — even at 50 or fewer elements —
while an array of at most 50 elements under any other non-sensitive key is
preserved element-by-element with recursive redaction. -/
theorem redactForPublic_collapses_lists (rt : String → String)
    (entries : List (String × Json)) (i : Nat) (k : String) (l : List Json)
    (hi : entries.get? i = some (k, .arr l))
    (hk : k = "refundable_charges" ∨ k = "refunds" ∨
      k = "refunded_by_topup") :
    (∃ out, redactForPublic rt (.obj entries) none = .obj out ∧
      out.get? i = some (k, .obj [("count", .num l.length)])) ∧
    (∀ j k2 l2, entries.get? j = some (k2, .arr l2) →
      ¬(k2 ∈ publicSensitiveKeys) →
      ¬(k2 = "refundable_charges" ∨ k2 = "refunds" ∨
        k2 = "refunded_by_topup") →
      l2.length ≤ 50 →
      ∃ out, redactForPublic rt (.obj entries) none = .obj out ∧
        out.get? j = some (k2, .arr (l2.map
          (fun x => redactForPublic rt x none)))) := by
  have hsens : k ∉ publicSensitiveKeys := by
    rcases hk with h | h | h <;> subst h <;> decide
  have hobj := redactForPublic_obj rt entries none rfl
  constructor
  · refine ⟨_, hobj, ?_⟩
    rw [List.get?_map, hi]
    simp only [Option.map_some']
    rw [redactEntryWith, if_neg (by simpa using hsens), if_pos ⟨hk, rfl⟩]
    rfl
  · intro j k2 l2 hj hs hk2 hlen
    refine ⟨_, hobj, ?_⟩
    rw [List.get?_map, hj]
    simp only [Option.map_some']
    rw [redactEntryWith, if_neg (by simpa using hs), if_neg (by
      rintro ⟨hx, -⟩
      exact hk2 hx)]
    rw [redactForPublic_arr rt l2 (some k2) (by simp [keyIsSensitive, hs])
      (by omega)]

theorem redactForPublic_collapses_lists_witness :
    ((∃ out, redactForPublic id
        (.obj [("other", .arr [.str "z"]),
          ("refunds", .arr [.str "x", .str "y"])]) none = .obj out ∧
      out.get? 1 = some ("refunds",
        .obj [("count", .num (List.length [Json.str "x", Json.str "y"]))])) ∧
    (∃ out, redactForPublic id
        (.obj [("other", .arr [.str "z"]),
          ("refunds", .arr [.str "x", .str "y"])]) none = .obj out ∧
      out.get? 0 = some ("other", .arr ([Json.str "z"].map
        (fun x => redactForPublic id x none))))) := by
  have h := redactForPublic_collapses_lists id
    [("other", .arr [.str "z"]), ("refunds", .arr [.str "x", .str "y"])]
    1 "refunds" [.str "x", .str "y"] (by rfl) (Or.inr (Or.inl rfl))
  exact ⟨h.1, h.2 0 "other" [.str "z"] (by rfl) (by decide) (by decide)
    (by decide)⟩

/-! ## Claim C7: `POST /api/refund-estimate/users` input handling
(src/apps/api/src/routes/refundEstimate.ts) -/

/-- JavaScript `String.prototype.trim`'s whitespace test (the characters
relevant here). -/
def isJsWhitespace (c : Char) : Bool :=
  c = ' ' ∨ c = '\t' ∨ c = '\n' ∨ c = '\r'

/-- Source `value.trim()` on the character list. -/
def trimChars (l : List Char) : List Char :=
  ((l.dropWhile isJsWhitespace).reverse.dropWhile isJsWhitespace).reverse

/-- One iteration of `normalizeUserIds`'s loop (refundEstimate.ts lines
444-454): trim; skip empties; a value failing `/^\d+$/` goes to `invalid`;
duplicates (the `seen` set is exactly the set of already-pushed valid ids)
are skipped; otherwise the value is appended to the valid list. -/
def normalizeStep (acc : List String × List String) (raw : String) :
    List String × List String :=
  let value : String := ⟨trimChars raw.data⟩
  if value = "" then acc
  else if ¬ (value.data.all Char.isDigit) then (acc.1, acc.2 ++ [value])
  else if value ∈ acc.1 then acc
  else (acc.1 ++ [value], acc.2)

/-- Source `normalizeUserIds(userIds)` (refundEstimate.ts lines 439-457):
returns `(normalized, invalid)`. -/
def normalizeUserIds (userIds : List String) :
    List String × List String :=
  userIds.foldl normalizeStep ([], [])

/-- The outcome-relevant fields of `computeRefundEstimateForUsers`'s
response `input` block. -/
structure EstimateInputReport where
  user_ids_valid : List String
  user_ids_invalid : List String
  user_ids_not_found : List String
  deriving DecidableEq, Repr

/-- The input-handling prefix of `computeRefundEstimateForUsers`
(refundEstimate.ts lines 578-597 and 829-839): normalize, reject an empty
valid list (`invalid_user_ids`), reject more than `MAX_USERS = 1500`
distinct valid ids (`too_many_user_ids:1500`), then report the requested
users that are not present among `existing` as `user_ids_not_found`. -/
def computeRefundEstimateForUsersInput (requested existing : List String) :
    Except String EstimateInputReport :=
  let r := normalizeUserIds requested
  if r.1.isEmpty then .error "invalid_user_ids"
  else if r.1.length > 1500 then .error "too_many_user_ids:1500"
  else .ok ⟨r.1, r.2, r.1.filter (fun i => ! existing.contains i)⟩

/-- The loop invariant of `normalizeUserIds`. -/
def NormInv (acc : List String × List String) : Prop :=
  acc.1.Nodup ∧
    (∀ v ∈ acc.1, v ≠ "" ∧ v.data.all Char.isDigit = true) ∧
    (∀ v ∈ acc.2, v ≠ "" ∧ v.data.all Char.isDigit = false)

theorem normalizeStep_inv (acc : List String × List String) (raw : String)
    (h : NormInv acc) : NormInv (normalizeStep acc raw) := by
  obtain ⟨h1, h2, h3⟩ := h
  simp only [normalizeStep]
  split_ifs with hv hd hm
  · exact ⟨h1, h2, h3⟩
  · exact ⟨h1, h2, h3⟩
  · refine ⟨?_, ?_, ?_⟩ <;> dsimp only
    · rw [List.nodup_append]
      refine ⟨h1, List.nodup_singleton _, ?_⟩
      intro a ha hb
      simp only [List.mem_singleton] at hb
      subst hb
      exact hm ha
    · intro v hv2
      rcases List.mem_append.mp hv2 with hx | hx
      · exact h2 v hx
      · simp only [List.mem_singleton] at hx
        subst hx
        exact ⟨hv, hd⟩
    · exact h3
  · refine ⟨?_, ?_, ?_⟩ <;> dsimp only
    · exact h1
    · exact h2
    · intro v hv2
      rcases List.mem_append.mp hv2 with hx | hx
      · exact h3 v hx
      · simp only [List.mem_singleton] at hx
        subst hx
        exact ⟨hv, by simpa using hd⟩

theorem normalizeUserIds_inv (userIds : List String) :
    NormInv (normalizeUserIds userIds) := by
  have hgen : ∀ (l : List String) (acc : List String × List String),
      NormInv acc → NormInv (l.foldl normalizeStep acc) := by
    intro l
    induction l with
    | nil => intro acc h; exact h
    | cons x xs ih =>
        intro acc h
        exact ih _ (normalizeStep_inv acc x h)
  exact hgen userIds ([], []) ⟨List.nodup_nil, by simp, by simp⟩

/-- C7.  The estimate-by-ids route accepts at most 1500 distinct valid user
ids: the valid list is deduplicated, consists of non-empty digit strings,
and is disjoint from the reported invalid list; submitting more than 1500
distinct valid ids fails with `too_many_user_ids:1500`; and on success the
response reports the invalid ids separately from the computed items and
lists requested users missing from the database as `user_ids_not_found`. -/
theorem refundEstimateUsers_input_limits (requested existing : List String) :
    ((normalizeUserIds requested).1.Nodup ∧
      (∀ v ∈ (normalizeUserIds requested).1,
        v ≠ "" ∧ v.data.all Char.isDigit = true) ∧
      (∀ v ∈ (normalizeUserIds requested).2,
        v ∉ (normalizeUserIds requested).1)) ∧
    ((normalizeUserIds requested).1.length > 1500 →
      computeRefundEstimateForUsersInput requested existing =
        .error "too_many_user_ids:1500") ∧
    (∀ rep, computeRefundEstimateForUsersInput requested existing =
        .ok rep →
      rep.user_ids_valid.length ≤ 1500 ∧
      rep.user_ids_valid = (normalizeUserIds requested).1 ∧
      rep.user_ids_invalid = (normalizeUserIds requested).2 ∧
      rep.user_ids_not_found = (normalizeUserIds requested).1.filter
        (fun i => ! existing.contains i)) := by
  obtain ⟨h1, h2, h3⟩ := normalizeUserIds_inv requested
  refine ⟨⟨h1, h2, ?_⟩, ?_, ?_⟩
  · intro v hv hmem
    have hd1 := (h2 v hmem).2
    have hd2 := (h3 v hv).2
    rw [hd1] at hd2
    simp at hd2
  · intro hlen
    simp only [computeRefundEstimateForUsersInput]
    rw [if_neg (by
      intro he
      rw [List.isEmpty_iff] at he
      rw [he] at hlen
      simp at hlen), if_pos hlen]
  · intro rep hok
    simp only [computeRefundEstimateForUsersInput] at hok
    split_ifs at hok with he hl
    simp only [Except.ok.injEq] at hok
    subst hok
    refine ⟨?_, rfl, rfl, rfl⟩
    dsimp only
    omega

theorem refundEstimateUsers_input_limits_witness :
    ((normalizeUserIds ["7", "x", "7", "8"]).1.length > 1500 →
      computeRefundEstimateForUsersInput ["7", "x", "7", "8"] ["7"] =
        .error "too_many_user_ids:1500") ∧
    (computeRefundEstimateForUsersInput ["7", "x", "7", "8"] ["7"] =
        .ok ⟨["7", "8"], ["x"], ["8"]⟩ →
      (⟨["7", "8"], ["x"], ["8"]⟩ : EstimateInputReport).user_ids_valid.length
          ≤ 1500 ∧
        (⟨["7", "8"], ["x"], ["8"]⟩ :
          EstimateInputReport).user_ids_valid =
          (normalizeUserIds ["7", "x", "7", "8"]).1 ∧
        (⟨["7", "8"], ["x"], ["8"]⟩ :
          EstimateInputReport).user_ids_invalid =
          (normalizeUserIds ["7", "x", "7", "8"]).2 ∧
        (⟨["7", "8"], ["x"], ["8"]⟩ :
          EstimateInputReport).user_ids_not_found =
          (normalizeUserIds ["7", "x", "7", "8"]).1.filter
            (fun i => ! (["7"] : List String).contains i)) :=
  ⟨(refundEstimateUsers_input_limits ["7", "x", "7", "8"] ["7"]).2.1,
    (refundEstimateUsers_input_limits ["7", "x", "7", "8"] ["7"]).2.2
      ⟨["7", "8"], ["x"], ["8"]⟩⟩

/-! ## Claim C8: yuan string parsing and formatting
(src/unnamed/part_012, `yuanStringToCents` / `centsToYuanString`).
Yuan strings are modelled as `List Char`. -/

/-- The digit test of `/^\d+$/` and of `BigInt(...)` digit acceptance. -/
def isDigitChar (c : Char) : Bool := 48 ≤ c.toNat ∧ c.toNat ≤ 57

/-- The numeric value of a decimal digit string (`BigInt(s)` on an
all-digits `s`). -/
def digitsVal (l : List Char) : Nat :=
  l.foldl (fun a c => 10 * a + (c.toNat - 48)) 0

/-- Source `BigInt(s)`: succeeds on a non-empty all-digits string, throws
otherwise (the only shapes that reach it here). -/
def bigIntOfDigits (l : List Char) : Option Nat :=
  if l ≠ [] ∧ l.all isDigitChar then some (digitsVal l) else none

/-- Source `frac.padEnd(2, '0')`. -/
def padEnd2 (l : List Char) : List Char :=
  if 2 ≤ l.length then l else l ++ List.replicate (2 - l.length) '0'

/-- Source `s.padStart(2, '0')`. -/
def padStart2 (l : List Char) : List Char :=
  if 2 ≤ l.length then l else List.replicate (2 - l.length) '0' ++ l

/-- The decimal rendering of a natural number (`BigInt.prototype.toString`:
no leading zeros, `"0"` for zero). -/
def renderNat (n : Nat) : List Char :=
  if h : n < 10 then [Nat.digitChar n]
  else renderNat (n / 10) ++ [Nat.digitChar (n % 10)]
termination_by n
decreasing_by
  have h10 : 10 ≤ n := Nat.le_of_not_lt h
  exact Nat.div_lt_self (by omega) (by omega)

/-- Source `yuanStringToCents(yuan)` (part_012 lines 22-31): trim; empty fails;
optional leading minus; split on the first dots into integer and
fractional segments; the fraction is padded with `'0'` to two digits and
truncated to two; `BigInt` conversion of both parts (non-digit content
throws). -/
def yuanStringToCents (l : List Char) : Option Int :=
  let trimmed := trimChars l
  if trimmed = [] then none
  else
    let negative : Bool := trimmed.head? = some '-'
    let normalized := if negative then trimmed.tail else trimmed
    let whole := normalized.takeWhile (· ≠ '.')
    let frac := ((normalized.dropWhile (· ≠ '.')).drop 1).takeWhile (· ≠ '.')
    let cent := (padEnd2 frac).take 2
    match bigIntOfDigits (if whole = [] then ['0'] else whole),
        bigIntOfDigits (if cent = [] then ['0'] else cent) with
    | some w, some c =>
        let cents : Int := (w : Int) * 100 + (c : Int)
        some (if negative then -cents else cents)
    | _, _ => none

/-- Source `centsToYuanString(cents)` (part_012 lines 14-20). -/
def centsToYuanString (cents : Int) : List Char :=
  let sign : List Char := if cents < 0 then ['-'] else []
  let abs : Int := if cents < 0 then -cents else cents
  let yuan := abs.tdiv 100
  let cent := abs.tmod 100
  sign ++ renderNat yuan.toNat ++ '.' :: padStart2 (renderNat cent.toNat)

/-- The rendered input string: optional minus, integer digits, optional
dot-plus-fraction-digits. -/
def renderYuanInput (sign : Bool) (ds : List Char)
    (frac : Option (List Char)) : List Char :=
  (if sign then ['-'] else []) ++ ds ++
    (match frac with
      | none => []
      | some fs => '.' :: fs)

/-- The specification's "exactly two fractional digits": truncate beyond
the second, pad with `'0'` up to two. -/
def twoFracDigits (fs : List Char) : List Char :=
  fs.take 2 ++ List.replicate (2 - (fs.take 2).length) '0'

/-- The exact cents value denoted by a rendered yuan input. -/
def yuanValueCents (sign : Bool) (ds fs : List Char) : Int :=
  let v : Int := (digitsVal ds : Int) * 100 +
    (digitsVal (twoFracDigits fs) : Int)
  if sign then -v else v

/-- The canonical rendering of a yuan input: minus sign exactly when the
input was signed and non-zero (canonicalization maps `"-0"` to `"0.00"`),
the integer part without leading zeros, and exactly two fractional
digits. -/
def canonicalYuan (sign : Bool) (ds fs : List Char) : List Char :=
  (if sign ∧ yuanValueCents sign ds fs ≠ 0 then ['-'] else []) ++
    renderNat (digitsVal ds) ++ '.' ::
      padStart2 (renderNat (digitsVal (twoFracDigits fs)))

lemma dropWhile_eq_self_of_none (p : Char → Bool) (l : List Char)
    (h : ∀ c ∈ l, p c = false) : l.dropWhile p = l := by
  cases l with
  | nil => rfl
  | cons a t => simp [List.dropWhile_cons, h a (List.mem_cons_self a t)]

lemma trimChars_eq_self (l : List Char)
    (h : ∀ c ∈ l, isJsWhitespace c = false) : trimChars l = l := by
  unfold trimChars
  rw [dropWhile_eq_self_of_none _ _ h,
    dropWhile_eq_self_of_none _ _ (fun c hc => h c (List.mem_reverse.mp hc)),
    List.reverse_reverse]

lemma takeWhile_append_all (p : Char → Bool) (xs ys : List Char)
    (h : ∀ x ∈ xs, p x = true) :
    (xs ++ ys).takeWhile p = xs ++ ys.takeWhile p := by
  induction xs with
  | nil => simp
  | cons a t ih =>
      have ha := h a (List.mem_cons_self a t)
      have ht := fun x hx => h x (List.mem_cons_of_mem a hx)
      simp [List.takeWhile_cons, ha, ih ht]

lemma dropWhile_append_all (p : Char → Bool) (xs ys : List Char)
    (h : ∀ x ∈ xs, p x = true) :
    (xs ++ ys).dropWhile p = ys.dropWhile p := by
  induction xs with
  | nil => rfl
  | cons a t ih =>
      have ha := h a (List.mem_cons_self a t)
      have ht := fun x hx => h x (List.mem_cons_of_mem a hx)
      simp [List.dropWhile_cons, ha, ih ht]

lemma takeWhile_eq_self_of_all (p : Char → Bool) (l : List Char)
    (h : ∀ c ∈ l, p c = true) : l.takeWhile p = l := by
  induction l with
  | nil => rfl
  | cons a t ih =>
      have ha := h a (List.mem_cons_self a t)
      have ht := fun x hx => h x (List.mem_cons_of_mem a hx)
      simp [List.takeWhile_cons, ha, ih ht]

lemma isDigitChar_props {c : Char} (h : isDigitChar c = true) :
    c ≠ '.' ∧ c ≠ '-' ∧ isJsWhitespace c = false := by
  simp only [isDigitChar, decide_eq_true_eq] at h
  refine ⟨?_, ?_, ?_⟩
  · intro hc; subst hc; exact absurd h (by decide)
  · intro hc; subst hc; exact absurd h (by decide)
  · rcases Bool.eq_false_or_eq_true (isJsWhitespace c) with hb | hb
    · simp only [isJsWhitespace, decide_eq_true_eq] at hb
      rcases hb with h1 | h1 | h1 | h1 <;> subst h1 <;> exact absurd h (by decide)
    · exact hb

lemma padEnd2_take_eq_twoFracDigits (fs : List Char) :
    (padEnd2 fs).take 2 = twoFracDigits fs := by
  unfold padEnd2 twoFracDigits
  by_cases h2 : 2 ≤ fs.length
  · rw [if_pos h2]
    have hlen : (fs.take 2).length = 2 := by
      rw [List.length_take]; omega
    simp [hlen]
  · rw [if_neg h2]
    have hfs : fs.take 2 = fs := List.take_of_length_le (by omega)
    rw [hfs]
    refine List.take_of_length_le ?_
    rw [List.length_append, List.length_replicate]
    omega

lemma twoFracDigits_length (fs : List Char) : (twoFracDigits fs).length = 2 := by
  unfold twoFracDigits
  rw [List.length_append, List.length_replicate, List.length_take]
  omega

lemma twoFracDigits_ne_nil (fs : List Char) : twoFracDigits fs ≠ [] := by
  intro h
  have := twoFracDigits_length fs
  rw [h] at this
  simp at this

lemma twoFracDigits_all_digits (fs : List Char)
    (h : fs.all isDigitChar = true) :
    (twoFracDigits fs).all isDigitChar = true := by
  rw [List.all_eq_true] at h ⊢
  intro c hc
  unfold twoFracDigits at hc
  rcases List.mem_append.mp hc with hc | hc
  · exact h c (List.mem_of_mem_take hc)
  · rw [List.eq_of_mem_replicate hc]; decide

lemma digitsVal_lt_100_of (l : List Char) (hl : l.length = 2)
    (hd : l.all isDigitChar = true) : digitsVal l < 100 := by
  match l, hl with
  | [a, b], _ =>
      simp only [List.all_cons, List.all_nil, Bool.and_eq_true,
        isDigitChar, decide_eq_true_eq] at hd
      simp only [digitsVal, List.foldl_cons, List.foldl_nil]
      omega

lemma yuanStringToCents_core (sign : Bool) (d : Char) (ds' fs dotpart : List Char)
    (hshape : dotpart = [] ∧ fs = [] ∨ dotpart = '.' :: fs)
    (hds : (d :: ds').all isDigitChar = true)
    (hfs : fs.all isDigitChar = true) :
    yuanStringToCents ((if sign then ['-'] else []) ++ (d :: ds') ++ dotpart) =
      some (yuanValueCents sign (d :: ds') fs) := by
  have hdsP : ∀ c ∈ (d :: ds'), isDigitChar c = true := by
    rw [List.all_eq_true] at hds; exact hds
  have hfsP : ∀ c ∈ fs, isDigitChar c = true := by
    rw [List.all_eq_true] at hfs; exact hfs
  have hp : ∀ c ∈ (d :: ds'), (decide (c ≠ '.')) = true := by
    intro c hc
    simp only [decide_eq_true_eq]
    exact (isDigitChar_props (hdsP c hc)).1
  have hpf : ∀ c ∈ fs, (decide (c ≠ '.')) = true := by
    intro c hc
    simp only [decide_eq_true_eq]
    exact (isDigitChar_props (hfsP c hc)).1
  have hnws0 : ∀ c ∈ (d :: ds') ++ dotpart, isJsWhitespace c = false := by
    intro c hc
    rcases List.mem_append.mp hc with hc | hc
    · exact (isDigitChar_props (hdsP c hc)).2.2
    · rcases hshape with ⟨h1, _⟩ | h1
      · rw [h1] at hc; simp at hc
      · rw [h1] at hc
        rcases List.mem_cons.mp hc with hc | hc
        · subst hc; decide
        · exact (isDigitChar_props (hfsP c hc)).2.2
  have hwhole : ((d :: ds') ++ dotpart).takeWhile (· ≠ '.') = d :: ds' := by
    rw [takeWhile_append_all _ _ _ hp]
    rcases hshape with ⟨h1, _⟩ | h1 <;> subst h1 <;> simp
  have hfracEq :
      ((((d :: ds') ++ dotpart).dropWhile (· ≠ '.')).drop 1).takeWhile (· ≠ '.')
        = fs := by
    rw [dropWhile_append_all _ _ _ hp]
    rcases hshape with ⟨h1, h2⟩ | h1
    · subst h1; subst h2; simp
    · subst h1
      rw [List.dropWhile_cons, if_neg (by decide)]
      show fs.takeWhile (· ≠ '.') = fs
      exact takeWhile_eq_self_of_all _ _ hpf
  have hcent : (padEnd2
      (((((d :: ds') ++ dotpart).dropWhile (· ≠ '.')).drop 1).takeWhile (· ≠ '.'))).take 2
      = twoFracDigits fs := by
    rw [hfracEq, padEnd2_take_eq_twoFracDigits]
  have hbig1 : bigIntOfDigits (d :: ds') = some (digitsVal (d :: ds')) := by
    unfold bigIntOfDigits
    rw [if_pos ⟨by simp, hds⟩]
  have hbig2 : bigIntOfDigits (twoFracDigits fs)
      = some (digitsVal (twoFracDigits fs)) := by
    unfold bigIntOfDigits
    rw [if_pos ⟨twoFracDigits_ne_nil fs, twoFracDigits_all_digits fs hfs⟩]
  have hdne : ¬(d = '-') :=
    (isDigitChar_props (hdsP d (List.mem_cons_self d ds'))).2.1
  cases sign with
  | false =>
      rw [if_neg Bool.false_ne_true, List.nil_append]
      have htrim0 : trimChars ((d :: ds') ++ dotpart) = (d :: ds') ++ dotpart :=
        trimChars_eq_self _ hnws0
      simp only [yuanStringToCents]
      rw [htrim0]
      rw [if_neg (by simp : ¬((d :: ds') ++ dotpart = []))]
      have hneg : (decide (((d :: ds') ++ dotpart).head? = some '-')) = false := by
        simp only [List.cons_append, List.head?_cons, decide_eq_false_iff_not]
        intro h
        exact hdne (Option.some.inj h)
      rw [hneg, if_neg Bool.false_ne_true]
      rw [hwhole, hfracEq, padEnd2_take_eq_twoFracDigits]
      rw [if_neg (List.cons_ne_nil d ds'), if_neg (twoFracDigits_ne_nil fs)]
      rw [hbig1, hbig2]
      rfl
  | true =>
      rw [if_pos rfl]
      show yuanStringToCents ('-' :: ((d :: ds') ++ dotpart)) = _
      have htrim1 : trimChars ('-' :: ((d :: ds') ++ dotpart))
          = '-' :: ((d :: ds') ++ dotpart) := by
        refine trimChars_eq_self _ ?_
        intro c hc
        rcases List.mem_cons.mp hc with hc | hc
        · subst hc; decide
        · exact hnws0 c hc
      simp only [yuanStringToCents]
      rw [htrim1]
      rw [if_neg (List.cons_ne_nil _ _)]
      have hneg : (decide (('-' :: ((d :: ds') ++ dotpart)).head? = some '-'))
          = true := rfl
      rw [hneg, if_pos rfl, List.tail_cons]
      rw [hwhole, hfracEq, padEnd2_take_eq_twoFracDigits]
      rw [if_neg (List.cons_ne_nil d ds'), if_neg (twoFracDigits_ne_nil fs)]
      rw [hbig1, hbig2]
      rfl

lemma yuanStringToCents_spec (sign : Bool) (ds : List Char)
    (frac : Option (List Char))
    (hne : ds ≠ []) (hds : ds.all isDigitChar = true)
    (hfs : (frac.getD []).all isDigitChar = true) :
    yuanStringToCents (renderYuanInput sign ds frac) =
      some (yuanValueCents sign ds (frac.getD [])) := by
  obtain ⟨d, ds', rfl⟩ : ∃ d ds', ds = d :: ds' := by
    cases ds with
    | nil => exact absurd rfl hne
    | cons d t => exact ⟨d, t, rfl⟩
  cases frac with
  | none =>
      exact yuanStringToCents_core sign d ds' [] [] (Or.inl ⟨rfl, rfl⟩) hds hfs
  | some fs =>
      exact yuanStringToCents_core sign d ds' fs ('.' :: fs) (Or.inr rfl) hds hfs

lemma centsToYuanString_canonical (sign : Bool) (ds fs : List Char)
    (hfs : fs.all isDigitChar = true) :
    centsToYuanString (yuanValueCents sign ds fs) = canonicalYuan sign ds fs := by
  have hClt : digitsVal (twoFracDigits fs) < 100 :=
    digitsVal_lt_100_of _ (twoFracDigits_length fs) (twoFracDigits_all_digits fs hfs)
  simp only [centsToYuanString, canonicalYuan, yuanValueCents]
  cases sign with
  | false =>
      have h1 : ¬((digitsVal ds : Int) * 100 + (digitsVal (twoFracDigits fs) : Int)
          < 0) := by omega
      have hdiv : (((digitsVal ds : Int) * 100 +
          (digitsVal (twoFracDigits fs) : Int)).tdiv 100).toNat = digitsVal ds := by
        rw [Int.tdiv_eq_ediv (by omega) (by omega)]; omega
      have hmod : (((digitsVal ds : Int) * 100 +
          (digitsVal (twoFracDigits fs) : Int)).tmod 100).toNat
          = digitsVal (twoFracDigits fs) := by
        rw [Int.tmod_eq_emod (by omega) (by omega)]; omega
      simp only [Bool.false_eq_true, if_false, false_and, if_neg h1, hdiv, hmod]
  | true =>
      by_cases h0 : digitsVal ds * 100 + digitsVal (twoFracDigits fs) = 0
      · have hWz : digitsVal ds = 0 := by omega
        have hCz : digitsVal (twoFracDigits fs) = 0 := by omega
        simp [hWz, hCz, show (((0 : Int).tdiv 100).toNat) = 0 from by decide,
          show (((0 : Int).tmod 100).toNat) = 0 from by decide]
      · have hlt : -((digitsVal ds : Int) * 100 +
            (digitsVal (twoFracDigits fs) : Int)) < 0 := by omega
        have hne0 : ¬(-((digitsVal ds : Int) * 100 +
            (digitsVal (twoFracDigits fs) : Int)) = 0) := by omega
        have hdiv : ((-(-((digitsVal ds : Int) * 100 +
            (digitsVal (twoFracDigits fs) : Int)))).tdiv 100).toNat
            = digitsVal ds := by
          rw [Int.tdiv_eq_ediv (by omega) (by omega)]; omega
        have hmod : ((-(-((digitsVal ds : Int) * 100 +
            (digitsVal (twoFracDigits fs) : Int)))).tmod 100).toNat
            = digitsVal (twoFracDigits fs) := by
          rw [Int.tmod_eq_emod (by omega) (by omega)]; omega
        simp only [eq_self_iff_true, if_true, true_and, ne_eq, if_pos hlt,
          if_pos hne0, hdiv, hmod]

/-- C8: for every yuan string made of an optional leading minus, a
non-empty all-digits integer part, and an optional dot followed by an
all-digits fractional part of any length, `yuanStringToCents` succeeds and
returns exactly the denoted cents value with fractional digits beyond the
second truncated; `centsToYuanString` of that value is the canonical
rendering (a minus sign exactly when the input was signed and non-zero, the
integer part without leading zeros, and exactly two fractional digits); and
the empty string fails to parse. -/
theorem yuanString_roundtrip_canonical (sign : Bool) (ds : List Char)
    (frac : Option (List Char))
    (hne : ds ≠ []) (hds : ds.all isDigitChar = true)
    (hfs : (frac.getD []).all isDigitChar = true) :
    yuanStringToCents (renderYuanInput sign ds frac) =
        some (yuanValueCents sign ds (frac.getD [])) ∧
      centsToYuanString (yuanValueCents sign ds (frac.getD [])) =
        canonicalYuan sign ds (frac.getD []) ∧
      yuanStringToCents [] = none :=
  ⟨yuanStringToCents_spec sign ds frac hne hds hfs,
   centsToYuanString_canonical sign ds (frac.getD []) hfs, rfl⟩

/-- Witness for C8 at the input "-1.239" (truncated to -123 cents,
rendered back as "-1.23"). -/
theorem yuanString_roundtrip_canonical_witness :
    (['1'] : List Char) ≠ [] ∧
      (['1'] : List Char).all isDigitChar = true ∧
      ((some ['2', '3', '9'] : Option (List Char)).getD
        []).all isDigitChar = true ∧
      (yuanStringToCents (renderYuanInput true ['1'] (some ['2', '3', '9'])) =
          some (yuanValueCents true ['1']
            ((some ['2', '3', '9'] : Option (List Char)).getD [])) ∧
        centsToYuanString (yuanValueCents true ['1']
            ((some ['2', '3', '9'] : Option (List Char)).getD [])) =
          canonicalYuan true ['1']
            ((some ['2', '3', '9'] : Option (List Char)).getD []) ∧
        yuanStringToCents [] = none) :=
  ⟨by decide, by decide, by decide,
   yuanString_roundtrip_canonical true ['1'] (some ['2', '3', '9'])
     (by decide) (by decide) (by decide)⟩

end ZeloRefund
